import Mathlib

/-! CppGitMining: the graph metric engine of `pkg/allen` and its callers

A shallow embedding of `src/pkg/allen/allen.go`, of the graph builders and
analyses of `src/pkg/gct/gct.go` and `src/pkg/sct/sct.go`, and of `ParseInput`
of `src/pkg/util/util.go`.

* Go pointers `*GraphNode` are addresses into an explicit heap (a list of
  nodes, the address being the position); `none` is the `nil` pointer.
  Dereferencing `nil` (or an address that holds no node) panics; a panic is
  the result `none` of the embedded function.
* `float64` is replaced by an exact field `α` (the reals in the theorems that
  speak about `log2`), and `math.Log2` is a parameter `log2 : α → α` of the
  estimators, instantiated with `Real.logb 2`.  Rounding is not modelled.
* The counters `zeroNodes` and `connectedNodes` are `float64` in the source but
  only ever hold a length plus a number of increments by one; they are
  natural numbers here and are cast to `α` where the source does arithmetic
  with them.
* A Go map is the list of its keys with a lookup function; the order in which
  the runtime ranges over it is a parameter `order` of the converters, any
  function that permutes its argument.
* Files, the JSON decoder and the external tools are outside the embedding:
  the functions that use them take what was read as an argument.
-/

namespace Allen

/-- A Go pointer to a `GraphNode`: `none` is `nil`, `some a` is the address `a`. -/
abbrev Ptr := Option Nat

/-- Edge of a graph (`type GraphEdge struct`). -/
structure GraphEdge (α : Type) where
  Node : Ptr
  Weight : α
  deriving DecidableEq

/-- Node of a graph (`type GraphNode struct`). -/
structure GraphNode (α : Type) where
  InEdges : List (GraphEdge α)
  OutEdges : List (GraphEdge α)
  deriving DecidableEq

/-- The heap: the node stored at every allocated address. -/
abbrev Heap (α : Type) := List (GraphNode α)

/-- Graph type (`type Graph []*GraphNode`). -/
abbrev Graph := List Ptr

/-- Pointer dereference; `none` is the nil-pointer panic. -/
def deref {α : Type} (H : Heap α) : Ptr → Option (GraphNode α)
  | none => none
  | some a => H.get? a

/-- A Go `for _, x := range xs` loop whose body may panic: the body maps the
loop state and the current element to the next state. -/
def forRange {σ β : Type} (body : σ → β → Option σ) : σ → List β → Option σ
  | st, [] => some st
  | st, x :: xs =>
    match body st x with
    | none => none
    | some st' => forRange body st' xs

section Engine

variable {α : Type} [Field α]

/-- The two inner loops of `SumWeights` for one node: `result[i] = 0`, then
every in-edge weight, then every out-edge weight is added. -/
def sumNode (node : GraphNode α) : α :=
  node.OutEdges.foldl (fun r edge => r + edge.Weight)
    (node.InEdges.foldl (fun r edge => r + edge.Weight) 0)

/-- Sum weights of all edges for every node (`SumWeights`). -/
def SumWeights (H : Heap α) : Graph → Option (List α)
  | [] => some []
  | p :: graph =>
    match deref H p with
    | none => none
    | some node =>
      match SumWeights H graph with
      | none => none
      | some rest => some (sumNode node :: rest)

/-- Body of the loop of `EdgeOnlyGraph`. -/
def edgeOnlyStep (H : Heap α) (result : Graph) (p : Ptr) : Option Graph :=
  match deref H p with
  | none => none
  | some node =>
    if node.OutEdges.length = 0 ∧ node.InEdges.length = 0 then some result
    else some (result ++ [p])

/-- Calculate the edges-only graph of the given graph (`EdgeOnlyGraph`). -/
def EdgeOnlyGraph (H : Heap α) (graph : Graph) : Option Graph :=
  forRange (edgeOnlyStep H) [] graph

/-- First test of `EstGraphSize` (lines 77-83): 0 in / 1 out, and the node at
the other end of the out-edge has 1 in / 0 out. -/
def pipeSource (H : Heap α) (node : GraphNode α) : Option Bool :=
  if node.InEdges.length = 0 ∧ node.OutEdges.length = 1 then
    match node.OutEdges.get? 0 with
    | none => none
    | some e =>
      match deref H e.Node with
      | none => none
      | some otherNode =>
        some (decide (otherNode.InEdges.length = 1 ∧ otherNode.OutEdges.length = 0))
  else some false

/-- Second test of `EstGraphSize` (lines 85-91): 1 in / 0 out, and the node at
the other end of the in-edge has 0 in / 1 out. -/
def pipeSink (H : Heap α) (node : GraphNode α) : Option Bool :=
  if node.InEdges.length = 1 ∧ node.OutEdges.length = 0 then
    match node.InEdges.get? 0 with
    | none => none
    | some e =>
      match deref H e.Node with
      | none => none
      | some otherNode =>
        some (decide (otherNode.InEdges.length = 0 ∧ otherNode.OutEdges.length = 1))
  else some false

/-- Third test of `EstGraphSize` (lines 93-103): 1 in / 1 out, both edges end at
the same pointer, and that node has 1 in / 1 out. -/
def mutualPair (H : Heap α) (node : GraphNode α) : Option Bool :=
  if node.InEdges.length = 1 ∧ node.OutEdges.length = 1 then
    match node.InEdges.get? 0, node.OutEdges.get? 0 with
    | some inE, some outE =>
      if inE.Node = outE.Node then
        match deref H inE.Node with
        | none => none
        | some inNode =>
          some (decide (inNode.InEdges.length = 1 ∧ inNode.OutEdges.length = 1))
      else some false
    | _, _ => none
  else some false

/-- Body of the loop of `EstGraphSize`; the state is `(zeroNodes, result)`. -/
def sizeStep (log2 : α → α) (H : Heap α) (nodeCount : α) (st : Nat × α) (p : Ptr) :
    Option (Nat × α) :=
  match deref H p with
  | none => none
  | some node =>
    if node.InEdges.length = 0 ∧ node.OutEdges.length = 0 then some (st.1 + 1, st.2)
    else
      match pipeSource H node with
      | none => none
      | some true => some (st.1, st.2 - log2 (2 / nodeCount))
      | some false =>
        match pipeSink H node with
        | none => none
        | some true => some (st.1, st.2 - log2 (2 / nodeCount))
        | some false =>
          match mutualPair H node with
          | none => none
          | some true => some (st.1, st.2 - log2 (2 / nodeCount))
          | some false => some (st.1, st.2 - log2 (1 / nodeCount))

/-- Calculate the estimated size of the given graph (`EstGraphSize`). -/
def EstGraphSize (log2 : α → α) (H : Heap α) (graph : Graph) : Option α :=
  let nodeCount : α := ((graph.length + 1 : Nat) : α)
  match forRange (sizeStep log2 H nodeCount) (1, 0) graph with
  | none => none
  | some (zeroNodes, result) =>
    some (result - ((zeroNodes : α) - 1) * log2 ((zeroNodes : α) / nodeCount))

/-- The inner loop of `EstIGraphSize` (lines 126-131): is the end of `outE` the
end of some in-edge? -/
def isInE (ins : List (GraphEdge α)) (outE : GraphEdge α) : Bool :=
  ins.any (fun inE => decide (inE.Node = outE.Node))

/-- The neighbour count of `EstIGraphSize` (lines 123-136): starts at
`len(node.InEdges)` and grows by one for every out-edge whose end is not the
end of an in-edge. -/
def connectedNodes (node : GraphNode α) : Nat :=
  node.OutEdges.foldl (fun c outE => if isInE node.InEdges outE then c else c + 1)
    node.InEdges.length

/-- Lines 138-151 of `EstIGraphSize`, for the node `graph[i]`. -/
def iSizeOfNode (log2 : α → α) (nodeCount : α) (node : GraphNode α) : α :=
  let connected := connectedNodes node
  let result : α :=
    if connected = 1 then 0 - 2 * log2 (2 / nodeCount)
    else 0 - ((connected : α) + 1) * log2 (1 / nodeCount)
  let zeroNodes : α := nodeCount - (connected : α) - 1
  result - (zeroNodes - 1) * log2 (zeroNodes / nodeCount)

/-- Calculate the estimated size of the node subsystem graph for node i
(`EstIGraphSize`); an index outside the slice panics. -/
def EstIGraphSize (log2 : α → α) (H : Heap α) (i : Nat) (graph : Graph) : Option α :=
  match graph.get? i with
  | none => none
  | some p =>
    match deref H p with
    | none => none
    | some node => some (iSizeOfNode log2 ((graph.length + 1 : Nat) : α) node)

/-- Body of the loop of `EstGraphComplexity` over the indices of the edges-only
graph. -/
def complexityStep (log2 : α → α) (H : Heap α) (edgeOnlyGraph : Graph) (result : α) (i : Nat) :
    Option α :=
  match EstIGraphSize log2 H i edgeOnlyGraph with
  | none => none
  | some v => some (result + v)

/-- Calculate the estimated complexity of the given graph
(`EstGraphComplexity`). -/
def EstGraphComplexity (log2 : α → α) (H : Heap α) (graph : Graph) : Option α :=
  match EdgeOnlyGraph H graph with
  | none => none
  | some edgeOnlyGraph =>
    match forRange (complexityStep log2 H edgeOnlyGraph) 0 (List.range edgeOnlyGraph.length) with
    | none => none
    | some result =>
      match EstGraphSize log2 H edgeOnlyGraph with
      | none => none
      | some size => some (result - size)

end Engine

/-! ## Reference definitions and closed forms -/

/-- Every pointer of the graph points at a node (no `nil` entry). -/
def Resolved {α : Type} (H : Heap α) (g : Graph) : Bool :=
  g.all fun p => (deref H p).isSome

/-- Every pointer of the graph points at a node, and so does the end of every
edge of these nodes: the graph holds no `nil` pointer. -/
def Closed {α : Type} (H : Heap α) (g : Graph) : Bool :=
  g.all fun p =>
    match deref H p with
    | none => false
    | some node => (node.InEdges ++ node.OutEdges).all fun e => (deref H e.Node).isSome

/-- Sum of the weights of a list of edges. -/
def weightSum {α : Type} [Field α] (es : List (GraphEdge α)) : α :=
  (es.map GraphEdge.Weight).sum

/-- Degree Aggregator entry of the node at `p` (specification 4.1): the sum of
the weights of its in-edges plus the sum of the weights of its out-edges. -/
def specDegree {α : Type} [Field α] (H : Heap α) (p : Ptr) : α :=
  match deref H p with
  | none => 0
  | some node => weightSum node.InEdges + weightSum node.OutEdges

/-- The node at `p` has at least one incoming or outgoing edge
(specification 4.2). -/
def hasEdges {α : Type} (H : Heap α) (p : Ptr) : Bool :=
  match deref H p with
  | none => false
  | some node => !(node.InEdges.isEmpty && node.OutEdges.isEmpty)

/-- The equivalence class the Size Estimator puts a node in (specification
4.3): member of the zero class, sharing its label with one neighbour, or
uniquely labelled. -/
inductive Label where
  | zero
  | shared
  | distinct
  deriving DecidableEq

/-- The node at `p` has exactly `nIn` incoming and `nOut` outgoing edges. -/
def hasDegrees {α : Type} (H : Heap α) (p : Ptr) (nIn nOut : Nat) : Bool :=
  match deref H p with
  | none => false
  | some node => decide (node.InEdges.length = nIn ∧ node.OutEdges.length = nOut)

/-- The class the loop body of `EstGraphSize` (allen.go 70-106) puts a node
in, read off its tests: isolated; 0 in / 1 out and the end of the out-edge has
1 in / 0 out; 1 in / 0 out and the end of the in-edge has 0 in / 1 out;
1 in / 1 out, both edges end at the same pointer and that node has
1 in / 1 out; otherwise distinct. As in the code, the third test does not ask
that the node at the other end differs from the node being classified. -/
def codeLabel {α : Type} (H : Heap α) (node : GraphNode α) : Label :=
  match node.InEdges, node.OutEdges with
  | [], [] => Label.zero
  | [], [e] => if hasDegrees H e.Node 1 0 = true then Label.shared else Label.distinct
  | [e], [] => if hasDegrees H e.Node 0 1 = true then Label.shared else Label.distinct
  | [i], [o] =>
    if i.Node = o.Node ∧ hasDegrees H i.Node 1 1 = true then Label.shared else Label.distinct
  | _, _ => Label.distinct

/-- The class the loop body of `EstGraphSize` puts the node at `p` in. -/
def codeLabelAt {α : Type} (H : Heap α) (p : Ptr) : Label :=
  match deref H p with
  | none => Label.distinct
  | some node => codeLabel H node

/-- Self-information a node of the given class adds to the running sum. -/
def specTerm {α : Type} [Field α] (log2 : α → α) (total : α) : Label → α
  | Label.zero => 0
  | Label.shared => -log2 (2 / total)
  | Label.distinct => -log2 (1 / total)

/-- The loop of `EstGraphSize` in closed form, with the classes the code
assigns: `total = N + 1`, `zero` is one plus the number of isolated nodes,
every other node adds the term of its class, and
`-(zero - 1) * log2 (zero / total)` is added at the end. -/
def codeGraphSize {α : Type} [Field α] (log2 : α → α) (H : Heap α) (g : Graph) : α :=
  let total : α := ((g.length + 1 : Nat) : α)
  let labels := g.map (codeLabelAt H)
  let zeros : Nat := 1 + labels.count Label.zero
  (labels.map (specTerm log2 total)).sum + -(((zeros : α) - 1) * log2 ((zeros : α) / total))

/-- Classification of the node at `p`, in the words of specification 4.3:
isolated; pipe source (0 in / 1 out, the target has 1 in / 0 out); pipe sink
(1 in / 0 out, the source has 0 in / 1 out); mutual pair (1 in / 1 out, both
edges connect to the same other node, a node different from the one being
classified, which has 1 in / 1 out); otherwise distinct. -/
def specLabel {α : Type} (H : Heap α) (p : Ptr) (node : GraphNode α) : Label :=
  match node.InEdges, node.OutEdges with
  | [], [] => Label.zero
  | [], [e] => if hasDegrees H e.Node 1 0 = true then Label.shared else Label.distinct
  | [e], [] => if hasDegrees H e.Node 0 1 = true then Label.shared else Label.distinct
  | [i], [o] =>
    if i.Node = o.Node ∧ i.Node ≠ p ∧ hasDegrees H i.Node 1 1 = true then Label.shared
    else Label.distinct
  | _, _ => Label.distinct

/-- Classification, in the words of the specification, of the node a graph
entry points at. -/
def specLabelAt {α : Type} (H : Heap α) (p : Ptr) : Label :=
  match deref H p with
  | none => Label.distinct
  | some node => specLabel H p node

/-- The reference sum of the Size Estimator (specification 4.3): `total = N + 1`,
`zero` is one plus the number of isolated nodes, every other node adds the term
of its class, and `-(zero - 1) * log2 (zero / total)` is added at the end. -/
def specGraphSize {α : Type} [Field α] (log2 : α → α) (H : Heap α) (g : Graph) : α :=
  let total : α := ((g.length + 1 : Nat) : α)
  let labels := g.map (specLabelAt H)
  let zeros : Nat := 1 + labels.count Label.zero
  (labels.map (specTerm log2 total)).sum + -(((zeros : α) - 1) * log2 ((zeros : α) / total))

/-- The reference value of the Subsystem Size Estimator (specification 4.4) for
a graph of `N` nodes and a node with `connected` neighbours: `label + rest`. -/
def specIGraphSize {α : Type} [Field α] (log2 : α → α) (N connected : Nat) : α :=
  let total : α := ((N + 1 : Nat) : α)
  let label : α :=
    if connected = 1 then -2 * log2 (2 / total)
    else -((connected : α) + 1) * log2 (1 / total)
  let zeros : α := total - (connected : α) - 1
  let rest : α := -(zeros - 1) * log2 (zeros / total)
  label + rest

/-- The number of distinct nodes joined to a node by at least one in-edge or
out-edge (specification 4.4). -/
def distinctNeighbours {α : Type} (node : GraphNode α) : Nat :=
  ((node.InEdges ++ node.OutEdges).map GraphEdge.Node).dedup.length

/-- Loop body that adds the subsystem size of the node at `p`; the loop of
`EstGraphComplexity` over indices is this loop over the entries. -/
def iSizeStep {α : Type} [Field α] (log2 : α → α) (H : Heap α) (nodeCount : α) (result : α)
    (p : Ptr) : Option α :=
  match deref H p with
  | none => none
  | some node => some (result + iSizeOfNode log2 nodeCount node)

/-- A pure two-node pipe: the only edge of `a` is an out-edge to `b` and the
only edge of `b` is an in-edge from `a`. -/
def IsPipe {α : Type} (H : Heap α) (a b : Ptr) : Prop :=
  ∃ w w', deref H a = some ⟨[], [⟨b, w⟩]⟩ ∧ deref H b = some ⟨[⟨a, w'⟩], []⟩

/-- A mutual pair: two different nodes, each with exactly one in-edge from and
one out-edge to the other. -/
def IsMutualPair {α : Type} (H : Heap α) (a b : Ptr) : Prop :=
  a ≠ b ∧ ∃ w₁ w₂ w₃ w₄, deref H a = some ⟨[⟨b, w₁⟩], [⟨b, w₂⟩]⟩
    ∧ deref H b = some ⟨[⟨a, w₃⟩], [⟨a, w₄⟩]⟩

/-- A star: the leaves are pairwise different and different from the hub, the
ends of the hub's edges are the leaves, once each, and every leaf has exactly
one edge, from or to the hub. -/
def IsStar {α : Type} (H : Heap α) (hub : Ptr) (leaves : List Ptr) : Prop :=
  leaves.Nodup ∧ hub ∉ leaves
    ∧ (∃ hubNode, deref H hub = some hubNode
        ∧ ((hubNode.InEdges ++ hubNode.OutEdges).map GraphEdge.Node).Perm leaves)
    ∧ ∀ l ∈ leaves, ∃ w, deref H l = some ⟨[], [⟨hub, w⟩]⟩ ∨ deref H l = some ⟨[⟨hub, w⟩], []⟩

/-- Every node of the graph is isolated: no in-edge and no out-edge. -/
def AllIsolated {α : Type} (H : Heap α) (g : Graph) : Bool :=
  g.all fun p => hasDegrees H p 0 0

/-- Number of entries of the out-list of the node at `u` that point at `v`. -/
def outCount {α : Type} (H : Heap α) (u v : Ptr) : Nat :=
  match deref H u with
  | none => 0
  | some node => node.OutEdges.countP fun e => decide (e.Node = v)

/-- Number of entries of the in-list of the node at `v` that point at `u`. -/
def inCount {α : Type} (H : Heap α) (v u : Ptr) : Nat :=
  match deref H v with
  | none => 0
  | some node => node.InEdges.countP fun e => decide (e.Node = u)

/-- A well-formed graph (invariants of the data model, specification 3): every
entry points at a node, every neighbour of a node is an entry of the graph,
and every edge is recorded in both endpoints' lists: `u` has as many
out-entries pointing at `v` as `v` has in-entries pointing at `u`. -/
def WellFormed {α : Type} (H : Heap α) (g : Graph) : Bool :=
  g.all fun u =>
    match deref H u with
    | none => false
    | some node =>
      ((node.InEdges ++ node.OutEdges).all fun e => decide (e.Node ∈ g))
        && g.all fun v => decide (outCount H u v = inCount H v u)

/-! ## Example graphs -/

/-- The two-node pipe A -> B: A at address 0, B at address 1, weight `w`. -/
def pipeHeap {α : Type} (w : α) : Heap α :=
  [⟨[], [⟨some 1, w⟩]⟩, ⟨[⟨some 0, w⟩], []⟩]

/-- The mutual pair A <-> B: A at address 0, B at address 1. -/
def mutualHeap {α : Type} (w : α) : Heap α :=
  [⟨[⟨some 1, w⟩], [⟨some 1, w⟩]⟩, ⟨[⟨some 0, w⟩], [⟨some 0, w⟩]⟩]

/-- A star with hub at address 0 and the two leaves 1 -> 0 and 0 -> 2. -/
def starHeap {α : Type} (w : α) : Heap α :=
  [⟨[⟨some 1, w⟩], [⟨some 2, w⟩]⟩, ⟨[], [⟨some 0, w⟩]⟩, ⟨[⟨some 0, w⟩], []⟩]

/-- Two isolated nodes. -/
def isolatedHeap {α : Type} : Heap α :=
  [⟨[], []⟩, ⟨[], []⟩]

/-- Node B (address 1) with two parallel in-edges from node A (address 0), as
built from a tool result that lists the edge A -> B twice. -/
def parallelHeap {α : Type} (w : α) : Heap α :=
  [⟨[], [⟨some 1, w⟩, ⟨some 1, w⟩]⟩, ⟨[⟨some 0, w⟩, ⟨some 0, w⟩], []⟩]

/-- A single node (address 0) whose only edge is a self-loop, as built from a
tool result with node `a` and edge `a -> a`. -/
def selfLoopHeap {α : Type} (w : α) : Heap α :=
  [⟨[⟨some 0, w⟩], [⟨some 0, w⟩]⟩]

/-! ## Input file (`pkg/util`, `pkg/git`) -/

/-- The scanning loop of `ParseInput` (util.go 83-96) over the lines the
scanner yields: a line is a url, the next line is its command; a url without a
following line is an error and nothing else is returned. -/
def scanLines (path : String) :
    List String → List String → List String → Except String (List String × List String)
  | [], urls, commands => Except.ok (urls, commands)
  | [_], _, _ => Except.error ("parsing " ++ path ++ ": missing command line")
  | url :: command :: rest, urls, commands =>
    scanLines path rest (urls ++ [url]) (commands ++ [command])

/-- Parse input file given at path (`ParseInput`). The outcome of `os.Open` and
the lines of the file are the argument `file`. -/
def ParseInput (path : String) (file : Except String (List String)) :
    Except String (List String × List String) :=
  match file with
  | Except.error err => Except.error err
  | Except.ok lines => scanLines path lines [] []

/-- The input test of `LoadRepos` (git/util.go 23-26): unequal numbers of urls
and commands panic. -/
def LoadReposInputTest (urls commands : List String) : Option Unit :=
  if urls.length ≠ commands.length then none else some ()

/-! ## Tool results (`pkg/gct`, `pkg/sct`) -/

/-- Struct representing a node in a gct result. -/
structure GctNode where
  Id : String

/-- Struct representing an edge in a gct result. -/
structure GctEdge (α : Type) where
  Id : String
  Start : String
  End : String
  Weight : α
  Directed : Bool

/-- Struct representing the result of a gct run. -/
structure GctJson (α : Type) where
  Nodes : List GctNode
  Edges : List (GctEdge α)

/-- Struct representing a node in a sct result. -/
structure SctNode where
  Id : String
  Label : String
  Value : Int

/-- Struct representing an edge in a sct result. -/
structure SctEdge (α : Type) where
  Directed : Bool
  End : String
  Id : String
  Start : String
  Weight : α

/-- Struct representing the result of a sct run. -/
structure SctJson (α : Type) where
  Edges : List (SctEdge α)
  Nodes : List SctNode

/-- A Go `map[string]*allen.GraphNode`: the keys that are present, once each,
and the value of every key; a key that is not present has the zero value
`nil`. -/
structure NodeMap where
  keys : List String
  get : String → Ptr

/-- The result of `make(map[string]*allen.GraphNode)`. -/
def NodeMap.new : NodeMap :=
  ⟨[], fun _ => none⟩

/-- The assignment `graphMap[key] = p`. -/
def NodeMap.set (m : NodeMap) (key : String) (p : Ptr) : NodeMap :=
  ⟨if key ∈ m.keys then m.keys else m.keys ++ [key], fun k => if k = key then p else m.get k⟩

/-- Body of the first loop of the converters,
`graphMap[node.Id] = new(allen.GraphNode)`: the new node gets the next free
address. -/
def copyNode {α : Type} (st : Heap α × NodeMap) (id : String) : Heap α × NodeMap :=
  (st.1 ++ [⟨[], []⟩], st.2.set id (some st.1.length))

/-- An assignment `p.field = f(p.field)` through a pointer: the node at `p` is
read and written back; a nil pointer panics. -/
def update {α : Type} (H : Heap α) (p : Ptr) (f : GraphNode α → GraphNode α) :
    Option (Heap α) :=
  match p with
  | none => none
  | some a =>
    match H.get? a with
    | none => none
    | some node => some (H.set a (f node))

/-- Body of the second loop of the converters: look both ends up in the map,
append the edge to the out-list of the start node, then to the in-list of the
end node. -/
def copyEdge {α : Type} (graphMap : NodeMap) (H : Heap α) (start finish : String)
    (weight : α) : Option (Heap α) :=
  let startNode := graphMap.get start
  let endNode := graphMap.get finish
  match update H startNode fun node =>
      ⟨node.InEdges, node.OutEdges ++ [⟨endNode, weight⟩]⟩ with
  | none => none
  | some H₁ =>
    update H₁ endNode fun node => ⟨node.InEdges ++ [⟨startNode, weight⟩], node.OutEdges⟩

/-- Convert the json result from the gct into the graph representation used
for analysis (`ConvertGctToGraph`). The nodes are allocated in an empty heap;
`order` is the order in which the Go runtime ranges over the map. -/
def ConvertGctToGraph {α : Type} (order : List Ptr → List Ptr) (gct : GctJson α) :
    Option (Heap α × Graph) :=
  let st := gct.Nodes.foldl (fun st node => copyNode st node.Id) (([] : Heap α), NodeMap.new)
  match forRange (fun H edge => copyEdge st.2 H edge.Start edge.End edge.Weight) st.1
      gct.Edges with
  | none => none
  | some H => some (H, order (st.2.keys.map st.2.get))

/-- Convert the json result from the sct into the graph representation used
for analysis (`ConvertSctToGraph`). -/
def ConvertSctToGraph {α : Type} (order : List Ptr → List Ptr) (json : SctJson α) :
    Option (Heap α × Graph) :=
  let st := json.Nodes.foldl (fun st node => copyNode st node.Id) (([] : Heap α), NodeMap.new)
  match forRange (fun H edge => copyEdge st.2 H edge.Start edge.End edge.Weight) st.1
      json.Edges with
  | none => none
  | some H => some (H, order (st.2.keys.map st.2.get))

/-- The common form of the two converters, over the node ids and the edges as
triples (start, end, weight). -/
def convertToGraph {α : Type} (order : List Ptr → List Ptr) (ids : List String)
    (edges : List (String × String × α)) : Option (Heap α × Graph) :=
  let st := ids.foldl copyNode (([] : Heap α), NodeMap.new)
  match forRange (fun H edge => copyEdge st.2 H edge.1 edge.2.1 edge.2.2) st.1 edges with
  | none => none
  | some H => some (H, order (st.2.keys.map st.2.get))

/-- The ids of the nodes of a gct result. -/
def gctIds {α : Type} (gct : GctJson α) : List String :=
  gct.Nodes.map GctNode.Id

/-- The edges of a gct result as triples. -/
def gctEdges {α : Type} (gct : GctJson α) : List (String × String × α) :=
  gct.Edges.map fun e => (e.Start, e.End, e.Weight)

/-- The ids of the nodes of a sct result. -/
def sctIds {α : Type} (json : SctJson α) : List String :=
  json.Nodes.map SctNode.Id

/-- The edges of a sct result as triples. -/
def sctEdges {α : Type} (json : SctJson α) : List (String × String × α) :=
  json.Edges.map fun e => (e.Start, e.End, e.Weight)

/-- The five values the two analyses compute from a graph. -/
structure Metrics (α : Type) where
  sum : α
  maximum : α
  avg : Option α
  size : α
  complexity : α

/-- Result of `AnalyseGctOutput`: the values stored under the keys of the
same names. -/
structure GctResult (α : Type) where
  SumGcd : α
  MaxGcd : α
  AvgGcd : Option α
  SizeGct : α
  ComplexityGct : α

/-- Result of `AnalyseSctOutput`: the values stored under the keys of the
same names. -/
structure SctResult (α : Type) where
  SumScd : α
  MaxScd : α
  AvgScd : Option α
  SizeSct : α
  ComplexitySct : α

/-- Body of the loop over the degrees (gct.go 134-140, sct.go 137-143); the
state is `(sum, maximum)`. -/
def degreeStep {α : Type} [LinearOrderedField α] (st : α × α) (v : α) : α × α :=
  (st.1 + v, if v > st.2 then v else st.2)

/-- The division `sum / float64(len(degrees))`: with no degrees the quotient
is not a number, which is the value `none`. -/
def divByLen {α : Type} [LinearOrderedField α] (sum : α) (n : Nat) : Option α :=
  if n = 0 then none else some (sum / (n : α))

/-- The part the two analyses share (gct.go 129-149, sct.go 132-152): the
degrees, their sum, maximum and mean, the size and the complexity. -/
def analyseGraph {α : Type} [LinearOrderedField α] (log2 : α → α) (H : Heap α)
    (graph : Graph) : Option (Metrics α) :=
  match SumWeights H graph with
  | none => none
  | some degrees =>
    let st := degrees.foldl degreeStep (0, 0)
    match EstGraphSize log2 H graph with
    | none => none
    | some size =>
      match EstGraphComplexity log2 H graph with
      | none => none
      | some complexity => some ⟨st.1, st.2, divByLen st.1 degrees.length, size, complexity⟩

/-- Analyse a gct json and return the result (`AnalyseGctOutput`). -/
def AnalyseGctOutput {α : Type} [LinearOrderedField α] (log2 : α → α)
    (order : List Ptr → List Ptr) (gctJson : GctJson α) : Option (GctResult α) :=
  match ConvertGctToGraph order gctJson with
  | none => none
  | some (H, graph) =>
    match analyseGraph log2 H graph with
    | none => none
    | some m => some ⟨m.sum, m.maximum, m.avg, m.size, m.complexity⟩

/-- Analyse a sct json and return the result (`AnalyseSctOutput`). -/
def AnalyseSctOutput {α : Type} [LinearOrderedField α] (log2 : α → α)
    (order : List Ptr → List Ptr) (sctJson : SctJson α) : Option (SctResult α) :=
  match ConvertSctToGraph order sctJson with
  | none => none
  | some (H, graph) =>
    match analyseGraph log2 H graph with
    | none => none
    | some m => some ⟨m.sum, m.maximum, m.avg, m.size, m.complexity⟩

/-- Parse and return a gct output (`ParseGctOutput`); `file` is what reading
and unmarshalling result.json gave. -/
def ParseGctOutput {α : Type} (file : Except String (GctJson α)) : Except String (GctJson α) :=
  match file with
  | Except.error err => Except.error err
  | Except.ok gctJson =>
    if gctJson.Nodes.length = 0 then Except.error "empty gct graph" else Except.ok gctJson

/-- Parse and return a sct output (`ParseSctOutput`); `file` is what reading
and unmarshalling results.json gave. -/
def ParseSctOutput {α : Type} (file : Except String (SctJson α)) : Except String (SctJson α) :=
  match file with
  | Except.error err => Except.error err
  | Except.ok sctJson =>
    if sctJson.Nodes.length = 0 then Except.error "empty sct graph" else Except.ok sctJson

/-- The end of `RunGctAnalysis` (gct.go 100-113, and 63-71 for an old output):
parse, return the error if there is one, otherwise analyse. The inner `none`
is a panic of the analysis. -/
def parseAndAnalyseGct {α : Type} [LinearOrderedField α] (log2 : α → α)
    (order : List Ptr → List Ptr) (file : Except String (GctJson α)) :
    Except String (Option (GctResult α)) :=
  match ParseGctOutput file with
  | Except.error err => Except.error err
  | Except.ok gctJson => Except.ok (AnalyseGctOutput log2 order gctJson)

/-- The end of `RunSctAnalysis` (sct.go 103-116, and 66-74 for an old output):
parse, return the error if there is one, otherwise analyse. -/
def parseAndAnalyseSct {α : Type} [LinearOrderedField α] (log2 : α → α)
    (order : List Ptr → List Ptr) (file : Except String (SctJson α)) :
    Except String (Option (SctResult α)) :=
  match ParseSctOutput file with
  | Except.error err => Except.error err
  | Except.ok sctJson => Except.ok (AnalyseSctOutput log2 order sctJson)

/-- The git-coupling result with nodes a, b, c and edges a -> b (weight `w₁`)
and b -> c (weight `w₂`). -/
def abcGct {α : Type} (w₁ w₂ : α) : GctJson α :=
  ⟨[⟨"a"⟩, ⟨"b"⟩, ⟨"c"⟩], [⟨"0", "a", "b", w₁, true⟩, ⟨"1", "b", "c", w₂, true⟩]⟩

/-- The static-coupling result with the same nodes and edges. -/
def abcSct {α : Type} (w₁ w₂ : α) : SctJson α :=
  ⟨[⟨true, "b", "0", "a", w₁⟩, ⟨true, "c", "1", "b", w₂⟩],
    [⟨"a", "a", 0⟩, ⟨"b", "b", 0⟩, ⟨"c", "c", 0⟩]⟩

/-- What the first loop of the converters maintains: every key is present
once, the keys point at different allocated nodes, a key that is not present
has the value `nil`, and all nodes are still without edges. -/
def MapInv {α : Type} (H : Heap α) (m : NodeMap) : Prop :=
  m.keys.Nodup
    ∧ (∀ k ∈ m.keys, ∃ a, m.get k = some a ∧ a < H.length)
    ∧ (∀ k, k ∉ m.keys → m.get k = none)
    ∧ (∀ k ∈ m.keys, ∀ k' ∈ m.keys, m.get k = m.get k' → k = k')
    ∧ ∀ node ∈ H, node = ⟨[], []⟩

/-- The entries the second loop appends to the in-list of the node at address
`c`: one for every edge whose end is mapped to `c`. -/
def inEntries {α : Type} (m : NodeMap) (edges : List (String × String × α)) (c : Nat) :
    List (GraphEdge α) :=
  (edges.filter fun e => decide (m.get e.2.1 = some c)).map fun e => ⟨m.get e.1, e.2.2⟩

/-- The entries the second loop appends to the out-list of the node at address
`c`: one for every edge whose start is mapped to `c`. -/
def outEntries {α : Type} (m : NodeMap) (edges : List (String × String × α)) (c : Nat) :
    List (GraphEdge α) :=
  (edges.filter fun e => decide (m.get e.1 = some c)).map fun e => ⟨m.get e.2.1, e.2.2⟩

/-- The heap `H` and the graph `g` represent the tool result with node ids
`ids` and edges `edges` through the pointer `ptr k` of every id `k`: the graph
holds one entry per distinct id, different ids have different pointers, and
the node of id `k` has one in-entry for every input edge that ends at `k`
(pointing at the start of the edge, with its weight) and one out-entry for
every input edge that starts at `k` (pointing at the end of the edge, with its
weight), in input order, and nothing else. -/
def Represents {α : Type} (H : Heap α) (g : Graph) (ptr : String → Ptr) (ids : List String)
    (edges : List (String × String × α)) : Prop :=
  g.Perm (ids.dedup.map ptr)
    ∧ (∀ k ∈ ids, ∀ k' ∈ ids, ptr k = ptr k' → k = k')
    ∧ ∀ k ∈ ids, deref H (ptr k)
        = some ⟨(edges.filter fun e => decide (e.2.1 = k)).map fun e => ⟨ptr e.1, e.2.2⟩,
            (edges.filter fun e => decide (e.1 = k)).map fun e => ⟨ptr e.2.1, e.2.2⟩⟩

/-- What the converters return for a tool result whose edges reference listed
ids: a heap and a graph that represent the result, with every node once, the
graph well-formed, and for every two ids `k`, `k'` as many out-entries of `k`
pointing at `k'`, and as many in-entries of `k'` pointing at `k`, as there are
input edges from `k` to `k'`. -/
def BuiltFrom {α : Type} (result : Option (Heap α × Graph)) (ids : List String)
    (edges : List (String × String × α)) : Prop :=
  ∃ H g ptr, result = some (H, g)
    ∧ Represents H g ptr ids edges
    ∧ g.Nodup ∧ g.length = ids.dedup.length
    ∧ WellFormed H g = true
    ∧ (∀ k ∈ ids, ∀ k' ∈ ids,
        outCount H (ptr k) (ptr k')
            = edges.countP (fun e => decide (e.1 = k) && decide (e.2.1 = k'))
          ∧ inCount H (ptr k') (ptr k)
            = edges.countP (fun e => decide (e.1 = k) && decide (e.2.1 = k')))
    ∧ ∀ u ∈ g, ∀ v ∈ g, outCount H u v = inCount H v u

/-- A git-coupling result whose edge ends at an id that is not listed. -/
def danglingGct {α : Type} (w : α) : GctJson α :=
  ⟨[⟨"a"⟩, ⟨"b"⟩], [⟨"0", "a", "z", w, true⟩]⟩

/-- A static-coupling result whose edge starts at an id that is not listed. -/
def danglingSct {α : Type} (w : α) : SctJson α :=
  ⟨[⟨true, "a", "0", "z", w⟩], [⟨"a", "a", 0⟩, ⟨"b", "b", 0⟩]⟩

/-! # Theorems -/

/-! ## Loops -/

theorem forRange_cons {σ β : Type} (body : σ → β → Option σ) (st : σ) (x : β) (xs : List β) :
    forRange body st (x :: xs) = (body st x).bind fun st' => forRange body st' xs := by
  cases h : body st x <;> simp [forRange, h]

theorem forRange_append {σ β : Type} (body : σ → β → Option σ) (xs ys : List β) (st : σ) :
    forRange body st (xs ++ ys) = (forRange body st xs).bind fun st' => forRange body st' ys := by
  induction xs generalizing st with
  | nil => simp [forRange]
  | cons x xs ih =>
    rw [List.cons_append, forRange_cons, forRange_cons]
    cases h : body st x with
    | none => simp
    | some st' => simp [ih]

/-- A loop whose body commutes with itself does not depend on the order of the
elements it ranges over. -/
theorem forRange_perm {σ β : Type} (body : σ → β → Option σ)
    (hcomm : ∀ st a b, ((body st a).bind fun st' => body st' b)
      = ((body st b).bind fun st' => body st' a))
    {l l' : List β} (h : l.Perm l') : ∀ st, forRange body st l = forRange body st l' := by
  induction h with
  | nil => intro st; rfl
  | cons x _ ih =>
    intro st
    rw [forRange_cons, forRange_cons]
    cases body st x with
    | none => rfl
    | some st' => simpa using ih st'
  | swap x y l =>
    intro st
    have h1 : ∀ a b, forRange body st (a :: b :: l)
        = ((body st b |> fun _ => (body st a).bind fun st' => body st' b)).bind
            fun st'' => forRange body st'' l := by
      intro a b
      rw [forRange_cons]
      cases body st a with
      | none => rfl
      | some st' => simp [forRange_cons]
    rw [h1, h1, hcomm]
  | trans _ _ ih1 ih2 => intro st; rw [ih1, ih2]

/-! ## Degree Aggregator -/

theorem foldl_weight {α : Type} [Field α] (es : List (GraphEdge α)) (a : α) :
    es.foldl (fun r edge => r + edge.Weight) a = a + weightSum es := by
  induction es generalizing a with
  | nil => simp [weightSum]
  | cons e es ih => simp [List.foldl_cons, ih, weightSum, add_assoc]

theorem sumNode_eq {α : Type} [Field α] (node : GraphNode α) :
    sumNode node = weightSum node.InEdges + weightSum node.OutEdges := by
  simp [sumNode, foldl_weight]

theorem SumWeights_eq_map {α : Type} [Field α] (H : Heap α) (g : Graph)
    (hres : Resolved H g = true) : SumWeights H g = some (g.map (specDegree H)) := by
  induction g with
  | nil => rfl
  | cons p g ih =>
    simp only [Resolved, List.all_cons, Bool.and_eq_true] at hres
    obtain ⟨hp, hg⟩ := hres
    obtain ⟨node, hnode⟩ := Option.isSome_iff_exists.mp hp
    simp [SumWeights, hnode, ih hg, specDegree, sumNode_eq]

/-! ## Graph Filter -/

theorem edgeOnly_forRange {α : Type} (H : Heap α) (g : Graph) (acc : Graph) :
    forRange (edgeOnlyStep H) acc g
      = if Resolved H g = true then some (acc ++ g.filter (hasEdges H)) else none := by
  induction g generalizing acc with
  | nil => simp [forRange, Resolved]
  | cons p g ih =>
    rw [forRange_cons]
    cases hp : deref H p with
    | none => simp [edgeOnlyStep, hp, Resolved]
    | some node =>
      have hres : Resolved H (p :: g) = Resolved H g := by simp [Resolved, hp]
      by_cases hiso : node.OutEdges.length = 0 ∧ node.InEdges.length = 0
      · have hE : hasEdges H p = false := by
          have hiso' := hiso
          simp only [List.length_eq_zero] at hiso'
          simp [hasEdges, hp, hiso'.1, hiso'.2]
        simp [edgeOnlyStep, hp, if_pos hiso, ih, hres, List.filter_cons, hE]
      · have hE : hasEdges H p = true := by
          have hiso' := hiso
          simp only [List.length_eq_zero] at hiso'
          simp only [hasEdges, hp, Bool.not_eq_true', Bool.and_eq_false_imp,
            List.isEmpty_iff]
          intro h1
          by_contra h2
          exact hiso' ⟨by simpa using h2, h1⟩
        simp [edgeOnlyStep, hp, if_neg hiso, ih, hres, List.filter_cons, hE]

theorem EdgeOnlyGraph_eq {α : Type} (H : Heap α) (g : Graph) :
    EdgeOnlyGraph H g = if Resolved H g = true then some (g.filter (hasEdges H)) else none := by
  simp [EdgeOnlyGraph, edgeOnly_forRange]


/-! ## Size Estimator -/

section SizeLemmas

variable {α : Type} [Field α]

/-- The loop body of `EstGraphSize` only adds to the state it is given. -/
theorem sizeStep_shift (log2 : α → α) (H : Heap α) (nc : α) (st : Nat × α) (p : Ptr) :
    sizeStep log2 H nc st p
      = (sizeStep log2 H nc (0, 0) p).map fun d => (st.1 + d.1, st.2 + d.2) := by
  unfold sizeStep
  cases deref H p with
  | none => rfl
  | some node =>
    simp only
    split_ifs
    · simp
    · cases pipeSource H node with
      | none => rfl
      | some b1 =>
        cases b1 with
        | true => simp [sub_eq_add_neg]
        | false =>
          cases pipeSink H node with
          | none => rfl
          | some b2 =>
            cases b2 with
            | true => simp [sub_eq_add_neg]
            | false =>
              cases mutualPair H node with
              | none => rfl
              | some b3 => cases b3 <;> simp [sub_eq_add_neg]

theorem sizeStep_comm (log2 : α → α) (H : Heap α) (nc : α) (st : Nat × α) (a b : Ptr) :
    ((sizeStep log2 H nc st a).bind fun st' => sizeStep log2 H nc st' b)
      = ((sizeStep log2 H nc st b).bind fun st' => sizeStep log2 H nc st' a) := by
  have hs := sizeStep_shift log2 H nc
  generalize sizeStep log2 H nc (0, 0) = D at hs
  simp only [hs]
  cases D a with
  | none => cases D b <;> simp
  | some da =>
    cases D b with
    | none => simp
    | some db =>
      simp only [Option.map_some', Option.some_bind, Option.some.injEq, Prod.mk.injEq]
      constructor
      · omega
      · ring

theorem EstGraphSize_perm (log2 : α → α) (H : Heap α) {g g' : Graph} (h : g'.Perm g) :
    EstGraphSize log2 H g' = EstGraphSize log2 H g := by
  unfold EstGraphSize
  simp only [h.length_eq]
  rw [forRange_perm _ (sizeStep_comm log2 H _) h]

/-- Under closedness the loop body of `EstGraphSize` adds the term of the
class `codeLabel` gives the node. -/
theorem sizeStep_closed (log2 : α → α) (H : Heap α) (nc : α) (st : Nat × α) (p : Ptr)
    (node : GraphNode α) (hp : deref H p = some node)
    (hcl : ∀ e ∈ node.InEdges ++ node.OutEdges, (deref H e.Node).isSome = true) :
    sizeStep log2 H nc st p
      = some (st.1 + (if codeLabel H node = Label.zero then 1 else 0),
          st.2 + specTerm log2 nc (codeLabel H node)) := by
  obtain ⟨ins, outs⟩ := node
  have hd : ∀ e ∈ ins ++ outs, ∃ n, deref H e.Node = some n := fun e he =>
    Option.isSome_iff_exists.mp (hcl e he)
  rcases ins with _ | ⟨i, _ | ⟨i2, ins⟩⟩ <;> rcases outs with _ | ⟨o, _ | ⟨o2, outs⟩⟩
  · simp [sizeStep, hp, codeLabel, specTerm]
  · obtain ⟨n, hn⟩ := hd o (by simp)
    have hh : hasDegrees H o.Node 1 0
        = decide (n.InEdges.length = 1 ∧ n.OutEdges.length = 0) := by
      simp [hasDegrees, hn]
    by_cases hdeg : n.InEdges.length = 1 ∧ n.OutEdges.length = 0
    · simp [sizeStep, hp, codeLabel, specTerm, pipeSource, hn, hh, hdeg, sub_eq_add_neg]
    · have hdeg' : (decide (n.InEdges.length = 1) && decide (n.OutEdges.length = 0)) = false := by
        simpa using hdeg
      simp [sizeStep, hp, codeLabel, specTerm, pipeSource, pipeSink, mutualPair, hn, hh,
        hdeg, hdeg', sub_eq_add_neg]
  · simp [sizeStep, hp, codeLabel, specTerm, pipeSource, pipeSink, mutualPair, sub_eq_add_neg]
  · obtain ⟨n, hn⟩ := hd i (by simp)
    have hh : hasDegrees H i.Node 0 1
        = decide (n.InEdges.length = 0 ∧ n.OutEdges.length = 1) := by
      simp [hasDegrees, hn]
    by_cases hdeg : n.InEdges.length = 0 ∧ n.OutEdges.length = 1
    · simp [sizeStep, hp, codeLabel, specTerm, pipeSource, pipeSink, hn, hh, hdeg,
        sub_eq_add_neg]
    · have hdeg' : (decide (n.InEdges.length = 0) && decide (n.OutEdges.length = 1)) = false := by
        simpa using hdeg
      simp [sizeStep, hp, codeLabel, specTerm, pipeSource, pipeSink, mutualPair, hn, hh,
        hdeg, hdeg', sub_eq_add_neg]
  · obtain ⟨n, hn⟩ := hd i (by simp)
    have hh : hasDegrees H i.Node 1 1
        = decide (n.InEdges.length = 1 ∧ n.OutEdges.length = 1) := by
      simp [hasDegrees, hn]
    by_cases heq : i.Node = o.Node
    · have hn' : deref H o.Node = some n := heq ▸ hn
      have hh' : hasDegrees H o.Node 1 1
          = decide (n.InEdges.length = 1 ∧ n.OutEdges.length = 1) := heq ▸ hh
      by_cases hdeg : n.InEdges.length = 1 ∧ n.OutEdges.length = 1
      · simp [sizeStep, hp, codeLabel, specTerm, pipeSource, pipeSink, mutualPair, hn, hn',
          hh, hh', hdeg, heq, sub_eq_add_neg]
      · have hdeg' : (decide (n.InEdges.length = 1) && decide (n.OutEdges.length = 1)) = false := by
          simpa using hdeg
        simp [sizeStep, hp, codeLabel, specTerm, pipeSource, pipeSink, mutualPair, hn, hn',
          hh, hh', hdeg, hdeg', heq, sub_eq_add_neg]
    · simp [sizeStep, hp, codeLabel, specTerm, pipeSource, pipeSink, mutualPair, heq,
        sub_eq_add_neg]
  · simp [sizeStep, hp, codeLabel, specTerm, pipeSource, pipeSink, mutualPair, sub_eq_add_neg]
  · simp [sizeStep, hp, codeLabel, specTerm, pipeSource, pipeSink, mutualPair, sub_eq_add_neg]
  · simp [sizeStep, hp, codeLabel, specTerm, pipeSource, pipeSink, mutualPair, sub_eq_add_neg]
  · simp [sizeStep, hp, codeLabel, specTerm, pipeSource, pipeSink, mutualPair, sub_eq_add_neg]

end SizeLemmas

section SizeSpec

variable {α : Type} [Field α]

omit [Field α] in
theorem Closed_cons (H : Heap α) (p : Ptr) (g : Graph) (hcl : Closed H (p :: g) = true) :
    (∃ node, deref H p = some node
        ∧ ∀ e ∈ node.InEdges ++ node.OutEdges, (deref H e.Node).isSome = true)
      ∧ Closed H g = true := by
  simp only [Closed, List.all_cons, Bool.and_eq_true] at hcl
  obtain ⟨hp, hg⟩ := hcl
  refine ⟨?_, by simpa [Closed] using hg⟩
  cases hd : deref H p with
  | none => simp [hd] at hp
  | some node =>
    refine ⟨node, rfl, ?_⟩
    simp only [hd, List.all_eq_true] at hp
    exact hp

theorem sizeLoop_closed (log2 : α → α) (H : Heap α) (nc : α) (g : Graph)
    (hcl : Closed H g = true) (st : Nat × α) :
    forRange (sizeStep log2 H nc) st g
      = some (st.1 + (g.map (codeLabelAt H)).count Label.zero,
          st.2 + ((g.map (codeLabelAt H)).map (specTerm log2 nc)).sum) := by
  induction g generalizing st with
  | nil => simp [forRange]
  | cons p g ih =>
    obtain ⟨⟨node, hp, hedges⟩, hg⟩ := Closed_cons H p g hcl
    rw [forRange_cons, sizeStep_closed log2 H nc st p node hp hedges, Option.some_bind, ih hg]
    have hl : codeLabelAt H p = codeLabel H node := by simp [codeLabelAt, hp]
    simp only [List.map_cons, List.sum_cons, hl, List.count_cons, Option.some.injEq,
      Prod.mk.injEq]
    constructor
    · by_cases hz : codeLabel H node = Label.zero <;> simp [hz]; omega
    · ring

theorem EstGraphSize_eq_closed (log2 : α → α) (H : Heap α) (g : Graph)
    (hcl : Closed H g = true) :
    EstGraphSize log2 H g = some (codeGraphSize log2 H g) := by
  simp only [EstGraphSize, sizeLoop_closed log2 H _ g hcl, codeGraphSize, zero_add,
    Option.some.injEq]
  ring

theorem EstIGraphSize_eq_spec (log2 : α → α) (H : Heap α) (g : Graph) (i : Nat) (p : Ptr)
    (node : GraphNode α) (hi : g.get? i = some p) (hp : deref H p = some node) :
    EstIGraphSize log2 H i g = some (specIGraphSize log2 g.length (connectedNodes node)) := by
  simp only [EstIGraphSize, hi, hp, iSizeOfNode, specIGraphSize, Option.some.injEq]
  split_ifs <;> ring

end SizeSpec

/-! ## Complexity Estimator -/

section ComplexityLemmas

variable {α : Type} [Field α]

/-- The index loop of `EstGraphComplexity` visits the entries of the edges-only
graph in order. -/
theorem complexity_range (log2 : α → α) (H : Heap α) (suf pre : Graph) (r : α) :
    forRange (complexityStep log2 H (pre ++ suf)) r (List.range' pre.length suf.length)
      = forRange (iSizeStep log2 H (((pre ++ suf).length + 1 : Nat) : α)) r suf := by
  induction suf generalizing pre r with
  | nil => simp [forRange]
  | cons p suf ih =>
    have hstep : complexityStep log2 H (pre ++ p :: suf) r pre.length
        = iSizeStep log2 H (((pre ++ p :: suf).length + 1 : Nat) : α) r p := by
      have hget : (pre ++ p :: suf).get? pre.length = some p := by
        rw [List.get?_eq_getElem?, List.getElem?_append_right (le_refl _)]
        simp
      simp only [complexityStep, EstIGraphSize, iSizeStep, hget]
      cases deref H p <;> rfl
    have hlist : pre ++ p :: suf = (pre ++ [p]) ++ suf := by simp
    rw [List.length_cons, List.range'_succ, forRange_cons, forRange_cons, hstep]
    cases hs : iSizeStep log2 H (((pre ++ p :: suf).length + 1 : Nat) : α) r p with
    | none => rfl
    | some r' =>
      simp only [Option.some_bind]
      have := ih (pre ++ [p]) r'
      simp only [List.length_append, List.length_singleton, List.length_cons] at this
      simp only [hlist, List.length_append, List.length_singleton, List.length_cons]
      exact this

theorem EstGraphComplexity_eq (log2 : α → α) (H : Heap α) (g : Graph) :
    EstGraphComplexity log2 H g
      = (EdgeOnlyGraph H g).bind fun E =>
          (forRange (iSizeStep log2 H ((E.length + 1 : Nat) : α)) 0 E).bind fun r =>
            (EstGraphSize log2 H E).bind fun size => some (r - size) := by
  unfold EstGraphComplexity
  cases EdgeOnlyGraph H g with
  | none => rfl
  | some E =>
    have h := complexity_range log2 H E [] 0
    simp only [List.nil_append, List.length_nil] at h
    simp only [Option.some_bind, List.range_eq_range', h]
    cases forRange (iSizeStep log2 H ((E.length + 1 : Nat) : α)) 0 E with
    | none => rfl
    | some r => cases EstGraphSize log2 H E <;> rfl

theorem iSizeStep_comm (log2 : α → α) (H : Heap α) (nc : α) (r : α) (a b : Ptr) :
    ((iSizeStep log2 H nc r a).bind fun r' => iSizeStep log2 H nc r' b)
      = ((iSizeStep log2 H nc r b).bind fun r' => iSizeStep log2 H nc r' a) := by
  unfold iSizeStep
  cases deref H a <;> cases deref H b <;> simp
  ring

omit [Field α] in
theorem Resolved_perm (H : Heap α) {g g' : Graph} (h : g'.Perm g) :
    Resolved H g' = Resolved H g := by
  rw [Bool.eq_iff_iff]
  simp only [Resolved, List.all_eq_true]
  exact ⟨fun hg p hp => hg p (h.mem_iff.mpr hp), fun hg p hp => hg p (h.mem_iff.mp hp)⟩

theorem EstGraphComplexity_perm (log2 : α → α) (H : Heap α) {g g' : Graph} (h : g'.Perm g) :
    EstGraphComplexity log2 H g' = EstGraphComplexity log2 H g := by
  rw [EstGraphComplexity_eq, EstGraphComplexity_eq, EdgeOnlyGraph_eq, EdgeOnlyGraph_eq,
    Resolved_perm H h]
  by_cases hres : Resolved H g = true
  · have hE : (g'.filter (hasEdges H)).Perm (g.filter (hasEdges H)) := h.filter _
    simp only [hres, if_true, Option.some_bind, hE.length_eq, EstGraphSize_perm log2 H hE]
    rw [forRange_perm _ (iSizeStep_comm log2 H _) hE]
  · simp [hres]

/-- The index loop of `EstGraphComplexity` adds up the subsystem sizes. -/
theorem complexityLoop_sum (log2 : α → α) (H : Heap α) (E : Graph) (sub : Nat → α)
    (l : List Nat) (h : ∀ i ∈ l, EstIGraphSize log2 H i E = some (sub i)) (r : α) :
    forRange (complexityStep log2 H E) r l = some (r + (l.map sub).sum) := by
  induction l generalizing r with
  | nil => simp [forRange]
  | cons i l ih =>
    have hi := h i (by simp)
    rw [forRange_cons]
    simp only [complexityStep, hi, Option.some_bind]
    rw [ih (fun j hj => h j (by simp [hj]))]
    simp [add_assoc]

omit [Field α] in
theorem Closed_filter (H : Heap α) (g : Graph) (q : Ptr → Bool) (hcl : Closed H g = true) :
    Closed H (g.filter q) = true := by
  simp only [Closed, List.all_eq_true, List.mem_filter] at hcl ⊢
  exact fun p hp => hcl p hp.1

omit [Field α] in
theorem Resolved_of_Closed (H : Heap α) (g : Graph) (hcl : Closed H g = true) :
    Resolved H g = true := by
  simp only [Closed, Resolved, List.all_eq_true] at hcl ⊢
  intro p hp
  have := hcl p hp
  cases hd : deref H p with
  | none => simp [hd] at this
  | some node => rfl

theorem EstIGraphSize_isSome (log2 : α → α) (H : Heap α) (E : Graph)
    (hres : Resolved H E = true) (i : Nat) (hi : i < E.length) :
    EstIGraphSize log2 H i E = some ((EstIGraphSize log2 H i E).getD 0) := by
  simp only [Resolved, List.all_eq_true] at hres
  have hmem : E[i] ∈ E := List.getElem_mem hi
  obtain ⟨node, hnode⟩ := Option.isSome_iff_exists.mp (hres _ hmem)
  have hget : E.get? i = some E[i] := by
    rw [List.get?_eq_getElem?]
    exact List.getElem?_eq_getElem hi
  simp only [EstIGraphSize, hget, hnode, Option.getD_some]

end ComplexityLemmas

/-! ## Special graphs -/

section Cases

variable {α : Type} [Field α]

/-- A loop in which every node adds the same term and none is isolated. -/
theorem sizeLoop_const (log2 : α → α) (H : Heap α) (nc t : α) (g : Graph)
    (h : ∀ p ∈ g, ∀ st, sizeStep log2 H nc st p = some (st.1, st.2 - t)) (st : Nat × α) :
    forRange (sizeStep log2 H nc) st g = some (st.1, st.2 - (g.length : α) * t) := by
  induction g generalizing st with
  | nil => simp [forRange]
  | cons p g ih =>
    rw [forRange_cons, h p (by simp) st, Option.some_bind,
      ih (fun q hq => h q (by simp [hq]))]
    simp only [List.length_cons, Nat.cast_add, Nat.cast_one, Option.some.injEq, Prod.mk.injEq,
      true_and]
    ring

theorem EstGraphSize_const (log2 : α → α) (H : Heap α) (t : α) (g : Graph)
    (h : ∀ p ∈ g, ∀ st, sizeStep log2 H ((g.length + 1 : Nat) : α) st p = some (st.1, st.2 - t)) :
    EstGraphSize log2 H g = some (-((g.length : α) * t)) := by
  simp only [EstGraphSize, sizeLoop_const log2 H _ t g h, Nat.cast_one, sub_self, zero_mul,
    Option.some.injEq]
  ring

theorem sizeStep_isolated (log2 : α → α) (H : Heap α) (nc : α) (st : Nat × α) (p : Ptr)
    (h : hasDegrees H p 0 0 = true) :
    sizeStep log2 H nc st p = some (st.1 + 1, st.2) := by
  unfold hasDegrees at h
  cases hd : deref H p with
  | none => simp [hd] at h
  | some node =>
    simp only [hd, decide_eq_true_eq] at h
    simp [sizeStep, hd, h]

theorem sizeLoop_isolated (log2 : α → α) (H : Heap α) (nc : α) (g : Graph)
    (h : AllIsolated H g = true) (st : Nat × α) :
    forRange (sizeStep log2 H nc) st g = some (st.1 + g.length, st.2) := by
  induction g generalizing st with
  | nil => simp [forRange]
  | cons p g ih =>
    simp only [AllIsolated, List.all_cons, Bool.and_eq_true] at h
    rw [forRange_cons, sizeStep_isolated log2 H nc st p h.1, Option.some_bind,
      ih (by simpa [AllIsolated] using h.2)]
    simp only [List.length_cons, Option.some.injEq, Prod.mk.injEq, and_true]
    omega

omit [Field α] in
theorem hasEdges_isolated (H : Heap α) (p : Ptr) (h : hasDegrees H p 0 0 = true) :
    hasEdges H p = false ∧ (deref H p).isSome = true := by
  unfold hasDegrees at h
  cases hd : deref H p with
  | none => simp [hd] at h
  | some node =>
    simp only [hd, decide_eq_true_eq, List.length_eq_zero] at h
    simp [hasEdges, hd, h.1, h.2]

omit [Field α] in
theorem EdgeOnlyGraph_isolated (H : Heap α) (g : Graph) (h : AllIsolated H g = true) :
    EdgeOnlyGraph H g = some [] := by
  simp only [AllIsolated, List.all_eq_true] at h
  have hres : Resolved H g = true := by
    simp only [Resolved, List.all_eq_true]
    exact fun p hp => (hasEdges_isolated H p (h p hp)).2
  rw [EdgeOnlyGraph_eq, if_pos hres]
  congr 1
  rw [List.filter_eq_nil_iff]
  intro p hp
  simp [(hasEdges_isolated H p (h p hp)).1]

omit [Field α] in
theorem IsPipe_ne (H : Heap α) (a b : Ptr) (h : IsPipe H a b) : a ≠ b := by
  obtain ⟨w, w', ha, hb⟩ := h
  intro hab
  subst hab
  rw [ha] at hb
  simp at hb

theorem sizeStep_pipe (log2 : α → α) (H : Heap α) (nc : α) (a b : Ptr) (h : IsPipe H a b) :
    (∀ st, sizeStep log2 H nc st a = some (st.1, st.2 - log2 (2 / nc)))
      ∧ ∀ st, sizeStep log2 H nc st b = some (st.1, st.2 - log2 (2 / nc)) := by
  obtain ⟨w, w', ha, hb⟩ := h
  constructor
  · intro st
    simp [sizeStep, pipeSource, ha, hb]
  · intro st
    simp [sizeStep, pipeSource, pipeSink, ha, hb]

theorem sizeStep_mutual (log2 : α → α) (H : Heap α) (nc : α) (a b : Ptr)
    (h : IsMutualPair H a b) :
    (∀ st, sizeStep log2 H nc st a = some (st.1, st.2 - log2 (2 / nc)))
      ∧ ∀ st, sizeStep log2 H nc st b = some (st.1, st.2 - log2 (2 / nc)) := by
  obtain ⟨_, w₁, w₂, w₃, w₄, ha, hb⟩ := h
  constructor
  · intro st
    simp [sizeStep, pipeSource, pipeSink, mutualPair, ha, hb]
  · intro st
    simp [sizeStep, pipeSource, pipeSink, mutualPair, ha, hb]

theorem sizeStep_star (log2 : α → α) (H : Heap α) (nc : α) (hub : Ptr) (leaves : List Ptr)
    (hk : 2 ≤ leaves.length) (hstar : IsStar H hub leaves) :
    ∀ p ∈ hub :: leaves, ∀ st, sizeStep log2 H nc st p = some (st.1, st.2 - log2 (1 / nc)) := by
  obtain ⟨hnd, _, ⟨hn, hhub, hperm⟩, hleaf⟩ := hstar
  have hlen : hn.InEdges.length + hn.OutEdges.length = leaves.length := by
    have := hperm.length_eq
    simpa using this
  have hnd' : ((hn.InEdges ++ hn.OutEdges).map GraphEdge.Node).Nodup := hperm.nodup_iff.mpr hnd
  have hno10 : (decide (hn.InEdges.length = 1) && decide (hn.OutEdges.length = 0)) = false := by
    rw [Bool.and_eq_false_iff]
    simp only [decide_eq_false_iff_not]
    omega
  have hno01 : (decide (hn.InEdges.length = 0) && decide (hn.OutEdges.length = 1)) = false := by
    rw [Bool.and_eq_false_iff]
    simp only [decide_eq_false_iff_not]
    omega
  intro p hp st
  rcases List.mem_cons.mp hp with rfl | hl
  · obtain ⟨ins, outs⟩ := hn
    rcases ins with _ | ⟨i, _ | ⟨i2, ins⟩⟩ <;> rcases outs with _ | ⟨o, _ | ⟨o2, outs⟩⟩
    · simp at hlen; omega
    · simp at hlen; omega
    · simp [sizeStep, pipeSource, pipeSink, mutualPair, hhub]
    · simp at hlen; omega
    · have hne : i.Node ≠ o.Node := by
        simpa using hnd'
      simp [sizeStep, pipeSource, pipeSink, mutualPair, hhub, hne]
    · simp [sizeStep, pipeSource, pipeSink, mutualPair, hhub]
    · simp [sizeStep, pipeSource, pipeSink, mutualPair, hhub]
    · simp [sizeStep, pipeSource, pipeSink, mutualPair, hhub]
    · simp [sizeStep, pipeSource, pipeSink, mutualPair, hhub]
  · obtain ⟨w, hl | hl⟩ := hleaf p hl
    · simp [sizeStep, pipeSource, pipeSink, mutualPair, hl, hhub, hno10]
    · simp [sizeStep, pipeSource, pipeSink, mutualPair, hl, hhub, hno01]

end Cases

/-! ## Neighbour count -/

theorem foldl_count {β : Type} (q : β → Bool) (l : List β) (c : Nat) :
    l.foldl (fun c x => if q x = true then c else c + 1) c
      = c + (l.filter fun x => !q x).length := by
  induction l generalizing c with
  | nil => simp
  | cons x l ih =>
    rw [List.foldl_cons, ih]
    cases hq : q x <;> simp [hq, List.filter_cons]
    omega

/-- The count of `EstIGraphSize`: every in-edge, plus every out-edge whose end
is not the end of an in-edge. -/
theorem connectedNodes_eq {α : Type} (node : GraphNode α) :
    connectedNodes node
      = node.InEdges.length + (node.OutEdges.filter fun o => !isInE node.InEdges o).length := by
  unfold connectedNodes
  exact foldl_count (isInE node.InEdges) node.OutEdges node.InEdges.length

theorem dedup_append_length (A B : List Ptr) (hA : A.Nodup) (hB : B.Nodup) :
    (A ++ B).dedup.length = A.length + (B.filter fun q => decide (q ∉ A)).length := by
  rw [← List.card_toFinset, List.toFinset_append, ← Finset.union_sdiff_self_eq_union,
    Finset.card_union_of_disjoint Finset.disjoint_sdiff, List.toFinset_card_of_nodup hA]
  congr 1
  rw [← List.toFinset_card_of_nodup (hB.filter _), List.toFinset_filter]
  congr 1
  ext q
  simp

/-- Without parallel edges in the same direction the count of `EstIGraphSize`
is the number of distinct neighbours. -/
theorem connectedNodes_eq_distinct {α : Type} (node : GraphNode α)
    (hin : (node.InEdges.map GraphEdge.Node).Nodup)
    (hout : (node.OutEdges.map GraphEdge.Node).Nodup) :
    connectedNodes node = distinctNeighbours node := by
  rw [connectedNodes_eq, distinctNeighbours, List.map_append, dedup_append_length _ _ hin hout,
    List.length_map, List.filter_map, List.length_map]
  congr 2
  apply List.filter_congr
  intro o _
  rw [Bool.eq_iff_iff]
  simp [isInE]

/-! ## The claims -/

theorem specLabel_eq_codeLabel {α : Type} (H : Heap α) (p : Ptr) (node : GraphNode α)
    (h : ∀ e ∈ node.InEdges, e.Node ≠ p) : specLabel H p node = codeLabel H node := by
  obtain ⟨ins, outs⟩ := node
  rcases ins with _ | ⟨i, _ | ⟨i2, ins⟩⟩ <;> rcases outs with _ | ⟨o, _ | ⟨o2, outs⟩⟩ <;>
    simp only [specLabel, codeLabel]
  have hne : i.Node ≠ p := h i (by simp)
  simp [hne]

/-- On a graph without nil pointers in which no node has an in-edge from
itself, `EstGraphSize` returns the reference sum of the specification. -/
theorem EstGraphSize_eq_spec_of_no_self_loop {α : Type} [Field α] (log2 : α → α) (H : Heap α)
    (g : Graph) (hcl : Closed H g = true)
    (hno : ∀ p ∈ g, ∀ node, deref H p = some node → ∀ e ∈ node.InEdges, e.Node ≠ p) :
    EstGraphSize log2 H g = some (specGraphSize log2 H g) := by
  have hmap : g.map (specLabelAt H) = g.map (codeLabelAt H) := by
    apply List.map_congr_left
    intro p hp
    unfold specLabelAt codeLabelAt
    cases hd : deref H p with
    | none => rfl
    | some node => exact specLabel_eq_codeLabel H p node (hno p hp node hd)
  rw [EstGraphSize_eq_closed log2 H g hcl]
  simp only [specGraphSize, codeGraphSize, hmap]

theorem selfLoop_size :
    EstGraphSize (Real.logb 2) (selfLoopHeap (1 : ℝ)) [some 0] = some 0 := by
  have hstep : ∀ st, sizeStep (Real.logb 2) (selfLoopHeap (1 : ℝ)) 2 st (some 0)
      = some (st.1, st.2 - Real.logb 2 (2 / 2)) := by
    intro st
    simp [sizeStep, pipeSource, pipeSink, mutualPair, selfLoopHeap, deref]
  have hnc : ((([some 0] : Graph).length + 1 : Nat) : ℝ) = 2 := by norm_num
  rw [EstGraphSize_const (Real.logb 2) (selfLoopHeap (1 : ℝ)) (Real.logb 2 (2 / 2)) [some 0]
    (by
      intro p hp st
      rw [hnc]
      simp only [List.mem_singleton] at hp
      subst hp
      exact hstep st)]
  simp

/-- C1 (failing input). On the graph of one node X whose only edge is a
self-loop (one in-edge from X, one out-edge to X) the reference sum of the
specification classifies X as distinct, because its two edges do not connect
it to another node, and is `-log2 (1 / 2) = 1`; `EstGraphSize` returns 0: its
third test takes X for a member of a mutual pair and subtracts
`log2 (2 / 2)`. -/
theorem EstGraphSize_self_loop_off_reference :
    Closed (selfLoopHeap (1 : ℝ)) [some 0] = true
      ∧ specLabelAt (selfLoopHeap (1 : ℝ)) (some 0) = Label.distinct
      ∧ codeLabelAt (selfLoopHeap (1 : ℝ)) (some 0) = Label.shared
      ∧ specGraphSize (Real.logb 2) (selfLoopHeap (1 : ℝ)) [some 0] = 1
      ∧ EstGraphSize (Real.logb 2) (selfLoopHeap (1 : ℝ)) [some 0] = some 0
      ∧ EstGraphSize (Real.logb 2) (selfLoopHeap (1 : ℝ)) [some 0]
          ≠ some (specGraphSize (Real.logb 2) (selfLoopHeap (1 : ℝ)) [some 0]) := by
  have hlabel : specLabelAt (selfLoopHeap (1 : ℝ)) (some 0) = Label.distinct := by decide
  have hspec : specGraphSize (Real.logb 2) (selfLoopHeap (1 : ℝ)) [some 0] = 1 := by
    have hlog : Real.logb 2 (1 / 2) = -1 := by
      rw [one_div, Real.logb_inv, Real.logb_self_eq_one (by norm_num)]
    have hnc : ((([some 0] : Graph).length + 1 : Nat) : ℝ) = 2 := by norm_num
    have hcount : List.count Label.zero [Label.distinct] = 0 := by decide
    simp only [specGraphSize, hnc, List.map_cons, List.map_nil, hlabel, specTerm,
      List.sum_cons, List.sum_nil, hlog, hcount]
    norm_num
  refine ⟨by decide, hlabel, by decide, hspec, selfLoop_size, ?_⟩
  rw [selfLoop_size, hspec]
  norm_num

/-- C2. For every graph `g` of `N` nodes and every valid index `i` (entry `i`
points at a node), `EstIGraphSize i g` returns `label + rest`, where
`total = N + 1`, `connected` is the neighbour count the function computes for
the node, `label` is `-2 * log2 (2 / total)` if `connected = 1` and
`-(connected + 1) * log2 (1 / total)` otherwise, `zero = total - connected - 1`
and `rest = -(zero - 1) * log2 (zero / total)`. -/
theorem EstIGraphSize_refines (H : Heap ℝ) (g : Graph) (i : Nat) (p : Ptr)
    (node : GraphNode ℝ) (hi : g.get? i = some p) (hp : deref H p = some node) :
    EstIGraphSize (Real.logb 2) H i g
      = some (specIGraphSize (Real.logb 2) g.length (connectedNodes node)) :=
  EstIGraphSize_eq_spec (Real.logb 2) H g i p node hi hp

theorem EstIGraphSize_refines_witness :
    ([some 0, some 1, some 2] : Graph).get? 0 = some (some 0)
      ∧ deref (starHeap (1 : ℝ)) (some 0) = some ⟨[⟨some 1, 1⟩], [⟨some 2, 1⟩]⟩
      ∧ EstIGraphSize (Real.logb 2) (starHeap (1 : ℝ)) 0 [some 0, some 1, some 2]
        = some (specIGraphSize (Real.logb 2) ([some 0, some 1, some 2] : Graph).length
            (connectedNodes (⟨[⟨some 1, 1⟩], [⟨some 2, 1⟩]⟩ : GraphNode ℝ))) :=
  ⟨rfl, rfl, EstIGraphSize_refines (starHeap (1 : ℝ)) [some 0, some 1, some 2] 0 (some 0)
    ⟨[⟨some 1, 1⟩], [⟨some 2, 1⟩]⟩ rfl rfl⟩

/-- C3 (failing input). Node B of `parallelHeap` has two in-edges, both from
node A: `EstIGraphSize` counts `connected = 2` for it, while exactly one
distinct node is joined to B. -/
theorem connectedNodes_parallel_edges :
    deref (parallelHeap (1 : ℚ)) (some 1) = some ⟨[⟨some 0, 1⟩, ⟨some 0, 1⟩], []⟩
      ∧ connectedNodes (⟨[⟨some 0, 1⟩, ⟨some 0, 1⟩], []⟩ : GraphNode ℚ) = 2
      ∧ distinctNeighbours (⟨[⟨some 0, 1⟩, ⟨some 0, 1⟩], []⟩ : GraphNode ℚ) = 1 := by
  decide

/-- C4. For every graph `g` without nil pointers, `EstGraphComplexity g` is the
sum of `EstIGraphSize i E` over every index `i` of `E` minus `EstGraphSize E`,
where `E = EdgeOnlyGraph g`; in particular for the two-node graph A -> B (one
edge) it is `SubsystemSize A + SubsystemSize B - Size {A, B}`, which is
`2 * log2 (3 / 2)`. -/
theorem EstGraphComplexity_spec :
    (∀ (H : Heap ℝ) (g : Graph), Closed H g = true →
      ∃ (E : Graph) (size : ℝ) (sub : Nat → ℝ),
        EdgeOnlyGraph H g = some E
          ∧ EstGraphSize (Real.logb 2) H E = some size
          ∧ (∀ i, i < E.length → EstIGraphSize (Real.logb 2) H i E = some (sub i))
          ∧ EstGraphComplexity (Real.logb 2) H g
              = some (((List.range E.length).map sub).sum - size))
      ∧ ∀ (H : Heap ℝ) (a b : Ptr), IsPipe H a b →
        ∃ sA sB size : ℝ,
          EstIGraphSize (Real.logb 2) H 0 [a, b] = some sA
            ∧ EstIGraphSize (Real.logb 2) H 1 [a, b] = some sB
            ∧ EstGraphSize (Real.logb 2) H [a, b] = some size
            ∧ EstGraphComplexity (Real.logb 2) H [a, b] = some (sA + sB - size)
            ∧ sA + sB - size = 2 * Real.logb 2 (3 / 2) := by
  constructor
  · intro H g hcl
    have hres := Resolved_of_Closed H g hcl
    have hE : EdgeOnlyGraph H g = some (g.filter (hasEdges H)) := by
      rw [EdgeOnlyGraph_eq, if_pos hres]
    have hclE := Closed_filter H g (hasEdges H) hcl
    have hsize := EstGraphSize_eq_closed (Real.logb 2) H _ hclE
    have hsub := EstIGraphSize_isSome (Real.logb 2) H _ (Resolved_of_Closed H _ hclE)
    refine ⟨g.filter (hasEdges H), _, _, hE, hsize, hsub, ?_⟩
    have hloop := complexityLoop_sum (Real.logb 2) H (g.filter (hasEdges H)) _
      (List.range (g.filter (hasEdges H)).length) (fun i hi => hsub i (List.mem_range.mp hi)) 0
    simp only [EstGraphComplexity, hE, hloop, hsize, zero_add]
  · intro H a b hpipe
    have hsize : EstGraphSize (Real.logb 2) H [a, b] = some (-2 * Real.logb 2 (2 / 3)) := by
      have hstep := sizeStep_pipe (Real.logb 2) H 3 a b hpipe
      have hnc : ((([a, b] : Graph).length + 1 : Nat) : ℝ) = 3 := by norm_num
      rw [EstGraphSize_const (Real.logb 2) H (Real.logb 2 (2 / 3)) [a, b] (by
        intro p hp st
        rw [hnc]
        simp only [List.mem_cons, List.mem_singleton, List.not_mem_nil, or_false] at hp
        rcases hp with rfl | rfl
        · exact hstep.1 st
        · exact hstep.2 st)]
      norm_num
    obtain ⟨w, w', ha, hb⟩ := hpipe
    have hA : EstIGraphSize (Real.logb 2) H 0 [a, b] = some (-2 * Real.logb 2 (2 / 3)) := by
      rw [EstIGraphSize_eq_spec (Real.logb 2) H [a, b] 0 a _ rfl ha]
      norm_num [specIGraphSize, connectedNodes, isInE]
    have hB : EstIGraphSize (Real.logb 2) H 1 [a, b] = some (-2 * Real.logb 2 (2 / 3)) := by
      rw [EstIGraphSize_eq_spec (Real.logb 2) H [a, b] 1 b _ rfl hb]
      norm_num [specIGraphSize, connectedNodes, isInE]
    have hE : EdgeOnlyGraph H [a, b] = some [a, b] := by
      simp [EdgeOnlyGraph_eq, Resolved, hasEdges, ha, hb]
    refine ⟨_, _, _, hA, hB, hsize, ?_, ?_⟩
    · simp [EstGraphComplexity, hE, forRange, complexityStep, hA, hB, hsize, List.range_succ]
    · have h1 : Real.logb 2 (2 / 3) = Real.logb 2 2 - Real.logb 2 3 :=
        Real.logb_div (by norm_num) (by norm_num)
      have h2 : Real.logb 2 (3 / 2) = Real.logb 2 3 - Real.logb 2 2 :=
        Real.logb_div (by norm_num) (by norm_num)
      rw [h1, h2]
      ring

theorem EstGraphComplexity_spec_witness :
    Closed (pipeHeap (1 : ℝ)) [some 0, some 1] = true
      ∧ IsPipe (pipeHeap (1 : ℝ)) (some 0) (some 1)
      ∧ (∃ (E : Graph) (size : ℝ) (sub : Nat → ℝ),
          EdgeOnlyGraph (pipeHeap (1 : ℝ)) [some 0, some 1] = some E
            ∧ EstGraphSize (Real.logb 2) (pipeHeap (1 : ℝ)) E = some size
            ∧ (∀ i, i < E.length →
                EstIGraphSize (Real.logb 2) (pipeHeap (1 : ℝ)) i E = some (sub i))
            ∧ EstGraphComplexity (Real.logb 2) (pipeHeap (1 : ℝ)) [some 0, some 1]
                = some (((List.range E.length).map sub).sum - size))
      ∧ ∃ sA sB size : ℝ,
          EstIGraphSize (Real.logb 2) (pipeHeap (1 : ℝ)) 0 [some 0, some 1] = some sA
            ∧ EstIGraphSize (Real.logb 2) (pipeHeap (1 : ℝ)) 1 [some 0, some 1] = some sB
            ∧ EstGraphSize (Real.logb 2) (pipeHeap (1 : ℝ)) [some 0, some 1] = some size
            ∧ EstGraphComplexity (Real.logb 2) (pipeHeap (1 : ℝ)) [some 0, some 1]
                = some (sA + sB - size)
            ∧ sA + sB - size = 2 * Real.logb 2 (3 / 2) :=
  ⟨by decide, ⟨1, 1, rfl, rfl⟩,
    EstGraphComplexity_spec.1 (pipeHeap (1 : ℝ)) [some 0, some 1] (by decide),
    EstGraphComplexity_spec.2 (pipeHeap (1 : ℝ)) (some 0) (some 1) ⟨1, 1, rfl, rfl⟩⟩

/-- C5. For every graph `g` of `N` nodes without nil entries, `SumWeights g` is
a sequence of exactly `N` numbers whose entry `i` is the sum of the weights of
node `i`'s in-edges plus the sum of the weights of its out-edges; a node whose
only edges are one in-edge and one out-edge of weight `w` to the same
neighbour gets `2 * w`; for `N = 0` the result is the empty sequence. -/
theorem SumWeights_spec {α : Type} [Field α] (H : Heap α) (g : Graph)
    (hres : Resolved H g = true) :
    ∃ result, SumWeights H g = some result ∧ result.length = g.length
      ∧ (∀ i p node, g.get? i = some p → deref H p = some node →
          result.get? i = some (weightSum node.InEdges + weightSum node.OutEdges))
      ∧ (∀ i p q w, g.get? i = some p → deref H p = some ⟨[⟨q, w⟩], [⟨q, w⟩]⟩ →
          result.get? i = some (2 * w))
      ∧ (g = [] → result = []) := by
  refine ⟨g.map (specDegree H), SumWeights_eq_map H g hres, by simp, ?_, ?_, ?_⟩
  · intro i p node hi hp
    rw [List.get?_eq_getElem?] at hi ⊢
    rw [List.getElem?_map, hi]
    simp [specDegree, hp]
  · intro i p q w hi hp
    rw [List.get?_eq_getElem?] at hi ⊢
    rw [List.getElem?_map, hi]
    simp [specDegree, hp, weightSum, two_mul]
  · intro hg
    simp [hg]

theorem SumWeights_spec_witness :
    Resolved (mutualHeap (5 : ℚ)) [some 0, some 1] = true
      ∧ ∃ result, SumWeights (mutualHeap (5 : ℚ)) [some 0, some 1] = some result
        ∧ result.length = ([some 0, some 1] : Graph).length
        ∧ (∀ i p node, ([some 0, some 1] : Graph).get? i = some p →
            deref (mutualHeap (5 : ℚ)) p = some node →
            result.get? i = some (weightSum node.InEdges + weightSum node.OutEdges))
        ∧ (∀ i p q w, ([some 0, some 1] : Graph).get? i = some p →
            deref (mutualHeap (5 : ℚ)) p = some ⟨[⟨q, w⟩], [⟨q, w⟩]⟩ →
            result.get? i = some (2 * w))
        ∧ (([some 0, some 1] : Graph) = [] → result = []) :=
  ⟨by decide, SumWeights_spec (mutualHeap (5 : ℚ)) [some 0, some 1] (by decide)⟩

/-- C6. For every graph `g` without nil entries, `EdgeOnlyGraph g` is exactly
the subsequence of `g`, in input order, of the entries whose node has at least
one in-edge or out-edge; the nodes themselves are not touched. -/
theorem EdgeOnlyGraph_spec {α : Type} (H : Heap α) (g : Graph) (hres : Resolved H g = true) :
    EdgeOnlyGraph H g = some (g.filter (hasEdges H))
      ∧ (g.filter (hasEdges H)).Sublist g
      ∧ ∀ p, p ∈ g.filter (hasEdges H) ↔ p ∈ g ∧ hasEdges H p = true := by
  refine ⟨?_, List.filter_sublist g, fun p => List.mem_filter⟩
  rw [EdgeOnlyGraph_eq, if_pos hres]

theorem EdgeOnlyGraph_spec_witness :
    Resolved (isolatedHeap ++ pipeHeap (1 : ℚ)) [some 0, some 2, some 1, some 3] = true
      ∧ (EdgeOnlyGraph (isolatedHeap ++ pipeHeap (1 : ℚ)) [some 0, some 2, some 1, some 3]
          = some (([some 0, some 2, some 1, some 3] : Graph).filter
              (hasEdges (isolatedHeap ++ pipeHeap (1 : ℚ))))
        ∧ (([some 0, some 2, some 1, some 3] : Graph).filter
              (hasEdges (isolatedHeap ++ pipeHeap (1 : ℚ)))).Sublist
            [some 0, some 2, some 1, some 3]
        ∧ ∀ p, p ∈ ([some 0, some 2, some 1, some 3] : Graph).filter
              (hasEdges (isolatedHeap ++ pipeHeap (1 : ℚ)))
            ↔ p ∈ ([some 0, some 2, some 1, some 3] : Graph)
              ∧ hasEdges (isolatedHeap ++ pipeHeap (1 : ℚ)) p = true) :=
  ⟨by decide, EdgeOnlyGraph_spec (isolatedHeap ++ pipeHeap (1 : ℚ))
    [some 0, some 2, some 1, some 3] (by decide)⟩

/-- C7. For every graph `g` and every permutation `g'` of its node collection
(same nodes and edges, different order), `EstGraphSize g' = EstGraphSize g` and
`EstGraphComplexity g' = EstGraphComplexity g`, arithmetic over the reals. -/
theorem estimators_perm_invariant (H : Heap ℝ) (g g' : Graph) (h : g'.Perm g) :
    EstGraphSize (Real.logb 2) H g' = EstGraphSize (Real.logb 2) H g
      ∧ EstGraphComplexity (Real.logb 2) H g' = EstGraphComplexity (Real.logb 2) H g :=
  ⟨EstGraphSize_perm (Real.logb 2) H h, EstGraphComplexity_perm (Real.logb 2) H h⟩

theorem estimators_perm_invariant_witness :
    ([some 2, some 0, some 1] : Graph).Perm [some 0, some 1, some 2]
      ∧ EstGraphSize (Real.logb 2) (starHeap (1 : ℝ)) [some 2, some 0, some 1]
        = EstGraphSize (Real.logb 2) (starHeap (1 : ℝ)) [some 0, some 1, some 2]
      ∧ EstGraphComplexity (Real.logb 2) (starHeap (1 : ℝ)) [some 2, some 0, some 1]
        = EstGraphComplexity (Real.logb 2) (starHeap (1 : ℝ)) [some 0, some 1, some 2] :=
  ⟨by decide, estimators_perm_invariant (starHeap (1 : ℝ)) [some 0, some 1, some 2]
    [some 2, some 0, some 1] (by decide)⟩

/-- C8. For every graph in which every node is isolated (no in-edge and no
out-edge), the empty graph included, `EstGraphSize` returns exactly 0 and
`EstGraphComplexity` returns exactly 0. -/
theorem isolated_graph_zero (H : Heap ℝ) (g : Graph) (hiso : AllIsolated H g = true) :
    EstGraphSize (Real.logb 2) H g = some 0
      ∧ EstGraphComplexity (Real.logb 2) H g = some 0 := by
  constructor
  · have hne : ((g.length : ℝ) + 1) ≠ 0 := by positivity
    simp only [EstGraphSize, sizeLoop_isolated (Real.logb 2) H _ g hiso, Option.some.injEq]
    have hcast : (((1 + g.length : Nat) : ℝ)) = ((g.length + 1 : Nat) : ℝ) := by
      rw [Nat.add_comm]
    rw [hcast]
    push_cast
    rw [div_self hne, Real.logb_one]
    ring
  · simp [EstGraphComplexity, EdgeOnlyGraph_isolated H g hiso, forRange, EstGraphSize]

theorem isolated_graph_zero_witness :
    AllIsolated (isolatedHeap : Heap ℝ) [some 0, some 1] = true
      ∧ EstGraphSize (Real.logb 2) (isolatedHeap : Heap ℝ) [some 0, some 1] = some 0
      ∧ EstGraphComplexity (Real.logb 2) (isolatedHeap : Heap ℝ) [some 0, some 1] = some 0 :=
  ⟨by decide, isolated_graph_zero (isolatedHeap : Heap ℝ) [some 0, some 1] (by decide)⟩

/-- C9. For every graph of exactly two nodes A and B that form a pure pipe
(single edge A -> B) or a mutual pair (one edge A -> B, one edge B -> A),
`EstGraphSize` returns `-2 * log2 (2 / 3)`, in either order of the two nodes:
with `total = 3` both nodes are charged the shared-label term
`-log2 (2 / total)`, `zero` stays 1 and the zero term is 0. -/
theorem two_node_size (H : Heap ℝ) (a b : Ptr) (h : IsPipe H a b ∨ IsMutualPair H a b) :
    EstGraphSize (Real.logb 2) H [a, b] = some (-2 * Real.logb 2 (2 / 3))
      ∧ EstGraphSize (Real.logb 2) H [b, a] = some (-2 * Real.logb 2 (2 / 3))
      ∧ (∀ st, sizeStep (Real.logb 2) H 3 st a = some (st.1, st.2 - Real.logb 2 (2 / 3)))
      ∧ (∀ st, sizeStep (Real.logb 2) H 3 st b = some (st.1, st.2 - Real.logb 2 (2 / 3)))
      ∧ forRange (sizeStep (Real.logb 2) H 3) (1, 0) [a, b]
          = some (1, 0 - Real.logb 2 (2 / 3) - Real.logb 2 (2 / 3))
      ∧ -(((1 : Nat) : ℝ) - 1) * Real.logb 2 (((1 : Nat) : ℝ) / 3) = 0 := by
  have hstep : (∀ st, sizeStep (Real.logb 2) H 3 st a = some (st.1, st.2 - Real.logb 2 (2 / 3)))
      ∧ ∀ st, sizeStep (Real.logb 2) H 3 st b = some (st.1, st.2 - Real.logb 2 (2 / 3)) := by
    rcases h with h | h
    · exact sizeStep_pipe (Real.logb 2) H 3 a b h
    · exact sizeStep_mutual (Real.logb 2) H 3 a b h
  have hsize : ∀ g : Graph, g.length = 2 → (∀ p ∈ g, p = a ∨ p = b) →
      EstGraphSize (Real.logb 2) H g = some (-2 * Real.logb 2 (2 / 3)) := by
    intro g hlen hmem
    have hnc : ((g.length + 1 : Nat) : ℝ) = 3 := by rw [hlen]; norm_num
    have := EstGraphSize_const (Real.logb 2) H (Real.logb 2 (2 / 3)) g (by
      intro p hp st
      rw [hnc]
      rcases hmem p hp with rfl | rfl
      · exact hstep.1 st
      · exact hstep.2 st)
    rw [this, hlen]
    norm_num
  refine ⟨hsize [a, b] rfl (by simp), hsize [b, a] rfl ?_, hstep.1, hstep.2, ?_, by simp⟩
  · intro p hp
    simp only [List.mem_cons, List.mem_singleton, List.not_mem_nil, or_false] at hp
    exact hp.symm
  · simp [forRange, hstep.1, hstep.2]

theorem two_node_size_witness :
    (IsPipe (pipeHeap (1 : ℝ)) (some 0) (some 1)
        ∨ IsMutualPair (pipeHeap (1 : ℝ)) (some 0) (some 1))
      ∧ EstGraphSize (Real.logb 2) (pipeHeap (1 : ℝ)) [some 0, some 1]
        = some (-2 * Real.logb 2 (2 / 3)) :=
  ⟨Or.inl ⟨1, 1, rfl, rfl⟩,
    (two_node_size (pipeHeap (1 : ℝ)) (some 0) (some 1) (Or.inl ⟨1, 1, rfl, rfl⟩)).1⟩

/-- C10. For every star graph made of one hub and `k >= 2` leaves, each leaf
having exactly one edge, from or to the hub, every node is classified as
distinct (the loop body adds `-log2 (1 / (k + 2))` and leaves `zero` alone) and
`EstGraphSize` returns `-(k + 1) * log2 (1 / (k + 2))`, in whatever order the
nodes are listed; for `k = 2` this is `-3 * log2 (1 / 4)`. -/
theorem star_size (H : Heap ℝ) (hub : Ptr) (leaves : List Ptr) (g : Graph)
    (hk : 2 ≤ leaves.length) (hstar : IsStar H hub leaves) (hg : g.Perm (hub :: leaves)) :
    EstGraphSize (Real.logb 2) H g
        = some (-((leaves.length : ℝ) + 1) * Real.logb 2 (1 / ((leaves.length : ℝ) + 2)))
      ∧ (∀ p ∈ g, ∀ st, sizeStep (Real.logb 2) H ((leaves.length : ℝ) + 2) st p
          = some (st.1, st.2 - Real.logb 2 (1 / ((leaves.length : ℝ) + 2))))
      ∧ (leaves.length = 2 →
          EstGraphSize (Real.logb 2) H g = some (-3 * Real.logb 2 (1 / 4))) := by
  have hlen : g.length = leaves.length + 1 := by simpa using hg.length_eq
  have hnc : ((g.length + 1 : Nat) : ℝ) = (leaves.length : ℝ) + 2 := by
    rw [hlen]
    push_cast
    ring
  have hstep : ∀ p ∈ g, ∀ st, sizeStep (Real.logb 2) H ((leaves.length : ℝ) + 2) st p
      = some (st.1, st.2 - Real.logb 2 (1 / ((leaves.length : ℝ) + 2))) :=
    fun p hp => sizeStep_star (Real.logb 2) H _ hub leaves hk hstar p (hg.mem_iff.mp hp)
  have hsize : EstGraphSize (Real.logb 2) H g
      = some (-((leaves.length : ℝ) + 1) * Real.logb 2 (1 / ((leaves.length : ℝ) + 2))) := by
    rw [EstGraphSize_const (Real.logb 2) H (Real.logb 2 (1 / ((leaves.length : ℝ) + 2))) g
      (by rw [hnc]; exact hstep), hlen]
    push_cast
    congr 1
    ring
  refine ⟨hsize, hstep, fun h2 => ?_⟩
  rw [hsize, h2]
  norm_num

theorem star_size_witness :
    2 ≤ ([some 1, some 2] : List Ptr).length
      ∧ IsStar (starHeap (1 : ℝ)) (some 0) [some 1, some 2]
      ∧ ([some 2, some 0, some 1] : Graph).Perm (some 0 :: [some 1, some 2])
      ∧ EstGraphSize (Real.logb 2) (starHeap (1 : ℝ)) [some 2, some 0, some 1]
        = some (-3 * Real.logb 2 (1 / 4)) :=
  have hstar : IsStar (starHeap (1 : ℝ)) (some 0) [some 1, some 2] :=
    ⟨by decide, by decide, ⟨_, rfl, List.Perm.refl _⟩, by
      intro l hl
      simp only [List.mem_cons, List.mem_singleton, List.not_mem_nil, or_false] at hl
      rcases hl with rfl | rfl
      · exact ⟨1, Or.inl rfl⟩
      · exact ⟨1, Or.inr rfl⟩⟩
  ⟨by decide, hstar, by decide,
    (star_size (starHeap (1 : ℝ)) (some 0) [some 1, some 2] [some 2, some 0, some 1]
      (by decide) hstar (by decide)).2.2 rfl⟩

/-! ## Non-negativity of the size estimate -/

theorem specTerm_nonneg (total : ℝ) (h : 2 ≤ total) (l : Label) :
    0 ≤ specTerm (Real.logb 2) total l := by
  have hpos : (0 : ℝ) < total := by linarith
  cases l with
  | zero => simp [specTerm]
  | shared =>
    have h1 : Real.logb 2 (2 / total) ≤ 0 :=
      Real.logb_nonpos (by norm_num) (by positivity) (by rw [div_le_one hpos]; exact h)
    simp only [specTerm]
    linarith
  | distinct =>
    have h1 : Real.logb 2 (1 / total) ≤ 0 :=
      Real.logb_nonpos (by norm_num) (by positivity) (by rw [div_le_one hpos]; linarith)
    simp only [specTerm]
    linarith

theorem Closed_append_left {α : Type} (H : Heap α) (pre suf : Graph)
    (hcl : Closed H (pre ++ suf) = true) : Closed H pre = true := by
  simp only [Closed, List.all_eq_true, List.mem_append] at hcl ⊢
  exact fun p hp => hcl p (Or.inl hp)

theorem Closed_mem {α : Type} (H : Heap α) (g : Graph) (hcl : Closed H g = true) (p : Ptr)
    (hp : p ∈ g) :
    ∃ node, deref H p = some node
      ∧ ∀ e ∈ node.InEdges ++ node.OutEdges, (deref H e.Node).isSome = true := by
  simp only [Closed, List.all_eq_true] at hcl
  have h := hcl p hp
  cases hd : deref H p with
  | none => simp [hd] at h
  | some node =>
    simp only [hd, List.all_eq_true] at h
    exact ⟨node, rfl, h⟩

/-- The state of the loop of `EstGraphSize` after any prefix of a closed graph. -/
theorem sizeLoop_bounds (H : Heap ℝ) (total : ℝ) (pre : Graph) (hcl : Closed H pre = true)
    (htotal : (pre.length : ℝ) + 1 ≤ total) :
    ∃ (zeroNodes : Nat) (result : ℝ),
      forRange (sizeStep (Real.logb 2) H total) (1, 0) pre = some (zeroNodes, result)
        ∧ 1 ≤ zeroNodes ∧ zeroNodes ≤ pre.length + 1 ∧ 0 ≤ result := by
  refine ⟨_, _, sizeLoop_closed (Real.logb 2) H total pre hcl (1, 0), by simp, ?_, ?_⟩
  · have := List.count_le_length (a := Label.zero) (l := pre.map (codeLabelAt H))
    simp only [List.length_map] at this
    simp only
    omega
  · simp only [zero_add]
    apply List.sum_nonneg
    intro x hx
    obtain ⟨l, hl, rfl⟩ := List.mem_map.mp hx
    obtain ⟨p, hp, rfl⟩ := List.mem_map.mp hl
    have hlen : 1 ≤ pre.length := List.length_pos_of_mem hp
    have : (1 : ℝ) ≤ (pre.length : ℝ) := by exact_mod_cast hlen
    exact specTerm_nonneg total (by linarith) _

/-- C11. For every graph `g` without nil pointers, `EstGraphSize g` is defined
and `>= 0` (log2 over the reals): after every prefix of the loop
`1 <= zero <= total = N + 1` and the running result is non-negative, the
arguments `1 / total`, `2 / total` (used only when the graph has a node) and
`zero / total` passed to log2 lie in `(0, 1]`, and every round of the loop
leaves `zero` and the result at least as large as they were. -/
theorem EstGraphSize_nonneg (H : Heap ℝ) (g : Graph) (hcl : Closed H g = true) :
    (∃ v, EstGraphSize (Real.logb 2) H g = some v ∧ 0 ≤ v)
      ∧ (∀ pre suf, g = pre ++ suf →
          ∃ (zeroNodes : Nat) (result : ℝ),
            forRange (sizeStep (Real.logb 2) H ((g.length + 1 : Nat) : ℝ)) (1, 0) pre
                = some (zeroNodes, result)
              ∧ 1 ≤ zeroNodes ∧ zeroNodes ≤ g.length + 1 ∧ 0 ≤ result
              ∧ 0 < (zeroNodes : ℝ) / ((g.length + 1 : Nat) : ℝ)
              ∧ (zeroNodes : ℝ) / ((g.length + 1 : Nat) : ℝ) ≤ 1)
      ∧ (0 < 1 / (((g.length + 1 : Nat) : ℝ)) ∧ 1 / (((g.length + 1 : Nat) : ℝ)) ≤ 1)
      ∧ (g ≠ [] → 0 < 2 / (((g.length + 1 : Nat) : ℝ))
          ∧ 2 / (((g.length + 1 : Nat) : ℝ)) ≤ 1)
      ∧ ∀ p ∈ g, ∀ st, ∃ st',
          sizeStep (Real.logb 2) H ((g.length + 1 : Nat) : ℝ) st p = some st'
            ∧ st.1 ≤ st'.1 ∧ st.2 ≤ st'.2 := by
  have htotal : (0 : ℝ) < ((g.length + 1 : Nat) : ℝ) := by positivity
  have hloop : ∀ pre suf, g = pre ++ suf →
      ∃ (zeroNodes : Nat) (result : ℝ),
        forRange (sizeStep (Real.logb 2) H ((g.length + 1 : Nat) : ℝ)) (1, 0) pre
            = some (zeroNodes, result)
          ∧ 1 ≤ zeroNodes ∧ zeroNodes ≤ g.length + 1 ∧ 0 ≤ result
          ∧ 0 < (zeroNodes : ℝ) / ((g.length + 1 : Nat) : ℝ)
          ∧ (zeroNodes : ℝ) / ((g.length + 1 : Nat) : ℝ) ≤ 1 := by
    intro pre suf hg
    have hlen : pre.length ≤ g.length := by rw [hg, List.length_append]; omega
    have hlen' : (pre.length : ℝ) + 1 ≤ ((g.length + 1 : Nat) : ℝ) := by
      push_cast
      have : (pre.length : ℝ) ≤ (g.length : ℝ) := by exact_mod_cast hlen
      linarith
    obtain ⟨z, r, hrun, hz1, hz2, hr⟩ := sizeLoop_bounds H _ pre
      (Closed_append_left H pre suf (hg ▸ hcl)) hlen'
    have hz1' : (1 : ℝ) ≤ (z : ℝ) := by exact_mod_cast hz1
    have hz3 : z ≤ g.length + 1 := by omega
    have hz3' : (z : ℝ) ≤ ((g.length + 1 : Nat) : ℝ) := by exact_mod_cast hz3
    refine ⟨z, r, hrun, hz1, hz3, hr, by positivity, ?_⟩
    rw [div_le_one htotal]
    exact hz3'
  refine ⟨?_, hloop, ⟨by positivity, ?_⟩, fun hne => ⟨by positivity, ?_⟩, ?_⟩
  · obtain ⟨z, r, hrun, hz1, _, hr, hpos, hle⟩ := hloop g [] (by simp)
    have hz1' : (0 : ℝ) ≤ (z : ℝ) - 1 := by
      have : (1 : ℝ) ≤ (z : ℝ) := by exact_mod_cast hz1
      linarith
    have hlog : Real.logb 2 ((z : ℝ) / ((g.length + 1 : Nat) : ℝ)) ≤ 0 :=
      Real.logb_nonpos (by norm_num) hpos.le hle
    have hval : EstGraphSize (Real.logb 2) H g
        = some (r - ((z : ℝ) - 1) * Real.logb 2 ((z : ℝ) / ((g.length + 1 : Nat) : ℝ))) := by
      simp only [EstGraphSize, hrun]
    refine ⟨_, hval, ?_⟩
    have := mul_nonpos_iff.mpr (Or.inl ⟨hz1', hlog⟩)
    linarith
  · rw [div_le_one htotal]
    push_cast
    have : (0 : ℝ) ≤ (g.length : ℝ) := by positivity
    linarith
  · rw [div_le_one htotal]
    have hlen : 1 ≤ g.length := List.length_pos.mpr hne
    have : (1 : ℝ) ≤ (g.length : ℝ) := by exact_mod_cast hlen
    push_cast
    linarith
  · intro p hp st
    obtain ⟨node, hnode, hedges⟩ := Closed_mem H g hcl p hp
    have hlen : 1 ≤ g.length := List.length_pos_of_mem hp
    have h2 : (2 : ℝ) ≤ ((g.length + 1 : Nat) : ℝ) := by
      have : (1 : ℝ) ≤ (g.length : ℝ) := by exact_mod_cast hlen
      push_cast
      linarith
    refine ⟨_, sizeStep_closed (Real.logb 2) H _ st p node hnode hedges, by simp, ?_⟩
    have := specTerm_nonneg _ h2 (codeLabel H node)
    simp only
    linarith

theorem EstGraphSize_nonneg_witness :
    Closed (starHeap (1 : ℝ)) [some 0, some 1, some 2] = true
      ∧ ∃ v, EstGraphSize (Real.logb 2) (starHeap (1 : ℝ)) [some 0, some 1, some 2] = some v
        ∧ 0 ≤ v :=
  ⟨by decide, (EstGraphSize_nonneg (starHeap (1 : ℝ)) [some 0, some 1, some 2] (by decide)).1⟩

/-! ## The neighbour count is below the number of nodes -/

theorem mem_of_get? {β : Type} (l : List β) (i : Nat) (x : β) (h : l.get? i = some x) :
    x ∈ l := by
  rw [List.get?_eq_getElem?] at h
  obtain ⟨hi, rfl⟩ := List.getElem?_eq_some.mp h
  exact List.getElem_mem hi

theorem distinctNeighbours_lt {α : Type} (g : Graph) (p : Ptr) (node : GraphNode α)
    (hpg : p ∈ g)
    (hmem : ∀ e ∈ node.InEdges ++ node.OutEdges, e.Node ∈ g)
    (hself : ∀ e ∈ node.InEdges ++ node.OutEdges, e.Node ≠ p) :
    distinctNeighbours node + 1 ≤ g.length := by
  have hsub : ((node.InEdges ++ node.OutEdges).map GraphEdge.Node).toFinset
      ⊆ g.toFinset.erase p := by
    intro q hq
    rw [List.mem_toFinset, List.mem_map] at hq
    obtain ⟨e, he, rfl⟩ := hq
    rw [Finset.mem_erase, List.mem_toFinset]
    exact ⟨hself e he, hmem e he⟩
  have h1 := Finset.card_le_card hsub
  rw [List.card_toFinset, Finset.card_erase_of_mem (List.mem_toFinset.mpr hpg)] at h1
  have h2 : g.toFinset.card ≤ g.length := List.toFinset_card_le g
  have h3 : 0 < g.toFinset.card := Finset.card_pos.mpr ⟨p, List.mem_toFinset.mpr hpg⟩
  unfold distinctNeighbours
  omega

theorem WellFormed_node {α : Type} (H : Heap α) (g : Graph) (hwf : WellFormed H g = true)
    (p : Ptr) (hpg : p ∈ g) :
    ∃ node, deref H p = some node
      ∧ (∀ e ∈ node.InEdges ++ node.OutEdges, e.Node ∈ g)
      ∧ ∀ v ∈ g, outCount H p v = inCount H v p := by
  simp only [WellFormed, List.all_eq_true] at hwf
  have h := hwf p hpg
  cases hd : deref H p with
  | none => simp [hd] at h
  | some node =>
    simp only [hd, Bool.and_eq_true, List.all_eq_true, decide_eq_true_eq] at h
    exact ⟨node, rfl, h.1, h.2⟩

/-- C17. For every well-formed graph of `N` nodes and every node `i` that has
no self-loop and no two parallel edges in the same direction to the same
neighbour, the neighbour count of `EstIGraphSize` satisfies
`connected <= N - 1`; hence `zero = total - connected - 1 = N - connected >= 1`
and the argument `zero / total` of the final log2 lies in `(0, 1)`, so it is
never 0; when `connected = N - 1` (the node is adjacent to every other node)
`zero = 1` and the final term is 0. -/
theorem connected_lt_nodes (H : Heap ℝ) (g : Graph) (i : Nat) (p : Ptr) (node : GraphNode ℝ)
    (hwf : WellFormed H g = true) (hi : g.get? i = some p) (hp : deref H p = some node)
    (hself : ∀ e ∈ node.InEdges ++ node.OutEdges, e.Node ≠ p)
    (hin : (node.InEdges.map GraphEdge.Node).Nodup)
    (hout : (node.OutEdges.map GraphEdge.Node).Nodup) :
    connectedNodes node ≤ g.length - 1
      ∧ ((g.length + 1 : Nat) : ℝ) - (connectedNodes node : ℝ) - 1
          = (g.length : ℝ) - (connectedNodes node : ℝ)
      ∧ 1 ≤ ((g.length + 1 : Nat) : ℝ) - (connectedNodes node : ℝ) - 1
      ∧ 0 < (((g.length + 1 : Nat) : ℝ) - (connectedNodes node : ℝ) - 1)
            / ((g.length + 1 : Nat) : ℝ)
      ∧ (((g.length + 1 : Nat) : ℝ) - (connectedNodes node : ℝ) - 1)
            / ((g.length + 1 : Nat) : ℝ) < 1
      ∧ (connectedNodes node = g.length - 1 →
          ((g.length + 1 : Nat) : ℝ) - (connectedNodes node : ℝ) - 1 = 1
            ∧ (((g.length + 1 : Nat) : ℝ) - (connectedNodes node : ℝ) - 1 - 1)
                * Real.logb 2 ((((g.length + 1 : Nat) : ℝ) - (connectedNodes node : ℝ) - 1)
                    / ((g.length + 1 : Nat) : ℝ)) = 0) := by
  have hpg : p ∈ g := mem_of_get? g i p hi
  obtain ⟨node', hp', hmem, _⟩ := WellFormed_node H g hwf p hpg
  rw [hp] at hp'
  obtain rfl : node = node' := Option.some.inj hp'
  have hlt : connectedNodes node + 1 ≤ g.length := by
    rw [connectedNodes_eq_distinct node hin hout]
    exact distinctNeighbours_lt g p node hpg hmem hself
  have hlt' : (connectedNodes node : ℝ) + 1 ≤ (g.length : ℝ) := by exact_mod_cast hlt
  have htotal : (0 : ℝ) < ((g.length + 1 : Nat) : ℝ) := by positivity
  have hc : (0 : ℝ) ≤ (connectedNodes node : ℝ) := by positivity
  refine ⟨by omega, by push_cast; ring, by push_cast; linarith, ?_, ?_, ?_⟩
  · apply div_pos _ htotal
    push_cast
    linarith
  · rw [div_lt_one htotal]
    push_cast
    linarith
  · intro hadj
    have hc' : (connectedNodes node : ℝ) = (g.length : ℝ) - 1 := by
      have : connectedNodes node + 1 = g.length := by omega
      have : ((connectedNodes node + 1 : Nat) : ℝ) = (g.length : ℝ) := by exact_mod_cast this
      push_cast at this
      linarith
    have hz : ((g.length + 1 : Nat) : ℝ) - (connectedNodes node : ℝ) - 1 = 1 := by
      push_cast
      rw [hc']
      ring
    refine ⟨hz, ?_⟩
    rw [hz]
    simp

theorem connected_lt_nodes_witness :
    WellFormed (starHeap (1 : ℝ)) [some 0, some 1, some 2] = true
      ∧ ([some 0, some 1, some 2] : Graph).get? 0 = some (some 0)
      ∧ deref (starHeap (1 : ℝ)) (some 0) = some ⟨[⟨some 1, 1⟩], [⟨some 2, 1⟩]⟩
      ∧ connectedNodes (⟨[⟨some 1, 1⟩], [⟨some 2, 1⟩]⟩ : GraphNode ℝ)
          ≤ ([some 0, some 1, some 2] : Graph).length - 1 :=
  ⟨by decide, rfl, rfl,
    (connected_lt_nodes (starHeap (1 : ℝ)) [some 0, some 1, some 2] 0 (some 0)
      ⟨[⟨some 1, 1⟩], [⟨some 2, 1⟩]⟩ (by decide) rfl rfl (by simp) (by simp) (by simp)).1⟩

/-! ## Shared labels come in pairs, self-loops apart -/

theorem singleton_of_countP {β : Type} (q : β → Bool) (l : List β) (hlen : l.length = 1)
    (hcount : l.countP q = 1) : ∃ x, l = [x] ∧ q x = true := by
  match l, hlen with
  | [x], _ =>
    refine ⟨x, rfl, ?_⟩
    by_contra hq
    simp [List.countP_cons, hq] at hcount

theorem WellFormed_counts {α : Type} (H : Heap α) (g : Graph) (hwf : WellFormed H g = true)
    (u v : Ptr) (hu : u ∈ g) (hv : v ∈ g) : outCount H u v = inCount H v u := by
  obtain ⟨_, _, _, h⟩ := WellFormed_node H g hwf u hu
  exact h v hv

/-- In a well-formed graph a node that `EstGraphSize` gives the shared label
either carries a self-loop as its only edges, or has exactly one neighbour,
another entry of the graph, which is given the shared label too and whose only
neighbour it is. -/
theorem shared_label_pairs {α : Type} (H : Heap α) (g : Graph) (hwf : WellFormed H g = true)
    (p : Ptr) (hpg : p ∈ g) (hlabel : codeLabelAt H p = Label.shared) :
    (∃ w₁ w₂, deref H p = some ⟨[⟨p, w₁⟩], [⟨p, w₂⟩]⟩)
      ∨ ∃ q ∈ g, q ≠ p ∧ codeLabelAt H q = Label.shared
          ∧ (∀ node, deref H p = some node → ∀ e ∈ node.InEdges ++ node.OutEdges, e.Node = q)
          ∧ ∀ node, deref H q = some node → ∀ e ∈ node.InEdges ++ node.OutEdges, e.Node = p := by
  obtain ⟨node, hp, hmem, _⟩ := WellFormed_node H g hwf p hpg
  simp only [codeLabelAt, hp] at hlabel
  obtain ⟨ins, outs⟩ := node
  rcases ins with _ | ⟨i, _ | ⟨i2, ins⟩⟩ <;> rcases outs with _ | ⟨o, _ | ⟨o2, outs⟩⟩ <;>
    simp only [codeLabel] at hlabel
  · cases hlabel
  · -- pipe source
    right
    have hdeg : hasDegrees H o.Node 1 0 = true := by
      by_contra h
      simp [h] at hlabel
    have hqg : o.Node ∈ g := hmem o (by simp)
    obtain ⟨nq, hq, _, _⟩ := WellFormed_node H g hwf o.Node hqg
    simp only [hasDegrees, hq, decide_eq_true_eq] at hdeg
    have hcount := WellFormed_counts H g hwf p o.Node hpg hqg
    simp only [outCount, inCount, hp, hq, List.countP_cons, List.countP_nil, decide_True,
      if_true, zero_add] at hcount
    obtain ⟨i, hi, hip⟩ := singleton_of_countP _ nq.InEdges hdeg.1 hcount.symm
    have hout : nq.OutEdges = [] := List.length_eq_zero.mp hdeg.2
    simp only [decide_eq_true_eq] at hip
    have hne : o.Node ≠ p := by
      intro h
      rw [h, hp] at hq
      have := Option.some.inj hq
      rw [← this] at hi
      simp at hi
    refine ⟨o.Node, hqg, hne, ?_, ?_, ?_⟩
    · obtain ⟨qi, qo⟩ := nq
      simp only at hi hout
      subst hi hout
      simp [codeLabelAt, hq, codeLabel, hip, hasDegrees, hp]
    · intro node hnode e he
      rw [hp] at hnode
      obtain rfl := Option.some.inj hnode
      simp only [List.nil_append, List.mem_singleton] at he
      rw [he]
    · intro node hnode e he
      rw [hq] at hnode
      obtain rfl := Option.some.inj hnode
      rw [hi, hout] at he
      simp only [List.append_nil, List.mem_singleton] at he
      rw [he, hip]
  · cases hlabel
  · -- pipe sink
    right
    have hdeg : hasDegrees H i.Node 0 1 = true := by
      by_contra h
      simp [h] at hlabel
    have hqg : i.Node ∈ g := hmem i (by simp)
    obtain ⟨nq, hq, _, _⟩ := WellFormed_node H g hwf i.Node hqg
    simp only [hasDegrees, hq, decide_eq_true_eq] at hdeg
    have hcount := WellFormed_counts H g hwf i.Node p hqg hpg
    simp only [outCount, inCount, hp, hq, List.countP_cons, List.countP_nil, decide_True,
      if_true, zero_add] at hcount
    obtain ⟨o, ho, hop⟩ := singleton_of_countP _ nq.OutEdges hdeg.2 hcount
    have hin : nq.InEdges = [] := List.length_eq_zero.mp hdeg.1
    simp only [decide_eq_true_eq] at hop
    have hne : i.Node ≠ p := by
      intro h
      rw [h, hp] at hq
      have := Option.some.inj hq
      rw [← this] at ho
      simp at ho
    refine ⟨i.Node, hqg, hne, ?_, ?_, ?_⟩
    · obtain ⟨qi, qo⟩ := nq
      simp only at ho hin
      subst ho hin
      simp [codeLabelAt, hq, codeLabel, hop, hasDegrees, hp]
    · intro node hnode e he
      rw [hp] at hnode
      obtain rfl := Option.some.inj hnode
      simp only [List.append_nil, List.mem_singleton] at he
      rw [he]
    · intro node hnode e he
      rw [hq] at hnode
      obtain rfl := Option.some.inj hnode
      rw [ho, hin] at he
      simp only [List.nil_append, List.mem_singleton] at he
      rw [he, hop]
  · -- mutual pair
    have hboth : i.Node = o.Node ∧ hasDegrees H i.Node 1 1 = true := by
      by_contra h
      simp [h] at hlabel
    obtain ⟨hio, hdeg⟩ := hboth
    by_cases hself : i.Node = p
    · left
      refine ⟨i.Weight, o.Weight, ?_⟩
      rw [hp]
      have ho : o.Node = p := hio ▸ hself
      obtain ⟨ni, wi⟩ := i
      obtain ⟨no, wo⟩ := o
      simp only at hself ho
      subst hself
      simp [ho]
    · right
      have hqg : i.Node ∈ g := hmem i (by simp)
      obtain ⟨nq, hq, _, _⟩ := WellFormed_node H g hwf i.Node hqg
      simp only [hasDegrees, hq, decide_eq_true_eq] at hdeg
      have hc1 := WellFormed_counts H g hwf p i.Node hpg hqg
      have hc2 := WellFormed_counts H g hwf i.Node p hqg hpg
      simp only [outCount, inCount, hp, hq, List.countP_cons, List.countP_nil, decide_True,
        if_true, zero_add, hio.symm] at hc1 hc2
      obtain ⟨qi, hqi, hqip⟩ := singleton_of_countP _ nq.InEdges hdeg.1 hc1.symm
      obtain ⟨qo, hqo, hqop⟩ := singleton_of_countP _ nq.OutEdges hdeg.2 hc2
      simp only [decide_eq_true_eq] at hqip hqop
      refine ⟨i.Node, hqg, hself, ?_, ?_, ?_⟩
      · obtain ⟨nqi, nqo⟩ := nq
        simp only at hqi hqo
        subst hqi hqo
        simp [codeLabelAt, hq, codeLabel, hqip, hqop, hasDegrees, hp]
      · intro node hnode e he
        rw [hp] at hnode
        obtain rfl := Option.some.inj hnode
        simp only [List.singleton_append, List.mem_cons, List.mem_singleton, List.not_mem_nil,
          or_false] at he
        rcases he with rfl | rfl
        · rfl
        · exact hio.symm
      · intro node hnode e he
        rw [hq] at hnode
        obtain rfl := Option.some.inj hnode
        rw [hqi, hqo] at he
        simp only [List.singleton_append, List.mem_cons, List.mem_singleton, List.not_mem_nil,
          or_false] at he
        rcases he with rfl | rfl
        · exact hqip
        · exact hqop
  · cases hlabel
  · cases hlabel
  · cases hlabel
  · cases hlabel

/-- C18 (failing input). The graph of one node with a self-loop is well-formed
and `EstGraphSize` charges its node the shared-label term `-log2 (2 / total)`
(`total = 2`, so the estimate is 0), although every edge of the node ends at
the node itself: it is connected to no other node and no second node carries
the label. -/
theorem shared_label_self_loop :
    WellFormed (selfLoopHeap (1 : ℝ)) [some 0] = true
      ∧ codeLabelAt (selfLoopHeap (1 : ℝ)) (some 0) = Label.shared
      ∧ (∀ st, sizeStep (Real.logb 2) (selfLoopHeap (1 : ℝ)) 2 st (some 0)
          = some (st.1, st.2 - Real.logb 2 (2 / 2)))
      ∧ EstGraphSize (Real.logb 2) (selfLoopHeap (1 : ℝ)) [some 0] = some 0
      ∧ (∀ node, deref (selfLoopHeap (1 : ℝ)) (some 0) = some node →
          ∀ e ∈ node.InEdges ++ node.OutEdges, e.Node = some 0)
      ∧ ∀ q ∈ ([some 0] : Graph), q = some 0 := by
  have hstep : ∀ st, sizeStep (Real.logb 2) (selfLoopHeap (1 : ℝ)) 2 st (some 0)
      = some (st.1, st.2 - Real.logb 2 (2 / 2)) := by
    intro st
    simp [sizeStep, pipeSource, pipeSink, mutualPair, selfLoopHeap, deref]
  refine ⟨by decide, by decide, hstep, ?_, ?_, by simp⟩
  · have hnc : ((([some 0] : Graph).length + 1 : Nat) : ℝ) = 2 := by norm_num
    rw [EstGraphSize_const (Real.logb 2) (selfLoopHeap (1 : ℝ)) (Real.logb 2 (2 / 2)) [some 0]
      (by
        intro p hp st
        rw [hnc]
        simp only [List.mem_singleton] at hp
        subst hp
        exact hstep st)]
    simp
  · intro node hnode e he
    have : node = ⟨[⟨some 0, 1⟩], [⟨some 0, 1⟩]⟩ := by
      simpa [selfLoopHeap, deref] using hnode.symm
    subst this
    simp only [List.mem_append, List.mem_singleton] at he
    rcases he with rfl | rfl <;> rfl

/-! ## Input file -/

theorem scanLines_even (path : String) (k : Nat) :
    ∀ (lines urls commands : List String), lines.length = 2 * k →
      ∃ us cs, scanLines path lines urls commands = Except.ok (urls ++ us, commands ++ cs)
        ∧ us.length = k ∧ cs.length = k
        ∧ ∀ j, j < k → us.get? j = lines.get? (2 * j) ∧ cs.get? j = lines.get? (2 * j + 1) := by
  induction k with
  | zero =>
    intro lines urls commands hlen
    have : lines = [] := List.length_eq_zero.mp (by omega)
    subst this
    exact ⟨[], [], by simp [scanLines], rfl, rfl, fun j hj => absurd hj (Nat.not_lt_zero j)⟩
  | succ k ih =>
    intro lines urls commands hlen
    match lines, hlen with
    | [], hlen => simp at hlen
    | [_], hlen => simp at hlen; omega
    | url :: command :: rest, hlen =>
      have hrest : rest.length = 2 * k := by
        simp only [List.length_cons] at hlen
        omega
      obtain ⟨us, cs, hrun, hus, hcs, hidx⟩ := ih rest (urls ++ [url]) (commands ++ [command]) hrest
      refine ⟨url :: us, command :: cs, ?_, by simp [hus], by simp [hcs], ?_⟩
      · rw [scanLines, hrun]
        simp
      · intro j hj
        cases j with
        | zero => simp
        | succ j =>
          have := hidx j (by omega)
          have h2 : 2 * (j + 1) = (2 * j + 1) + 1 := by ring
          rw [h2]
          simpa using this

theorem scanLines_odd (path : String) (k : Nat) :
    ∀ (lines urls commands : List String), lines.length = 2 * k + 1 →
      scanLines path lines urls commands
        = Except.error ("parsing " ++ path ++ ": missing command line") := by
  induction k with
  | zero =>
    intro lines urls commands hlen
    match lines, hlen with
    | [_], _ => rfl
  | succ k ih =>
    intro lines urls commands hlen
    match lines, hlen with
    | [], hlen => simp at hlen
    | [_], hlen => simp at hlen
    | url :: command :: rest, hlen =>
      have hrest : rest.length = 2 * k + 1 := by
        simp only [List.length_cons] at hlen
        omega
      rw [scanLines, ih rest _ _ hrest]

/-- C16. For every input file read as a list of lines: if the number of lines
is even, `ParseInput` succeeds and returns as urls the lines at positions
0, 2, 4, ... and as commands the lines at positions 1, 3, 5, ..., in order, so
both have half as many elements as there are lines and the input test of
`LoadRepos` passes; if the number of lines is odd, `ParseInput` returns the
error 'missing command line' and neither urls nor commands. -/
theorem ParseInput_spec (path : String) (lines : List String) :
    (lines.length % 2 = 0 →
      ∃ urls commands, ParseInput path (Except.ok lines) = Except.ok (urls, commands)
        ∧ urls.length = lines.length / 2 ∧ commands.length = lines.length / 2
        ∧ (∀ j, j < lines.length / 2 →
            urls.get? j = lines.get? (2 * j) ∧ commands.get? j = lines.get? (2 * j + 1))
        ∧ LoadReposInputTest urls commands = some ())
      ∧ (lines.length % 2 = 1 →
        ParseInput path (Except.ok lines)
          = Except.error ("parsing " ++ path ++ ": missing command line")) := by
  constructor
  · intro heven
    obtain ⟨us, cs, hrun, hus, hcs, hidx⟩ :=
      scanLines_even path (lines.length / 2) lines [] [] (by omega)
    refine ⟨us, cs, by simpa [ParseInput] using hrun, hus, hcs, hidx, ?_⟩
    simp [LoadReposInputTest, hus, hcs]
  · intro hodd
    exact scanLines_odd path (lines.length / 2) lines [] [] (by omega)

theorem ParseInput_spec_witness :
    (∃ urls commands,
        ParseInput "in.txt" (Except.ok ["u1", "make", "u2", "cmake ."])
            = Except.ok (urls, commands)
          ∧ urls.length = 2 ∧ commands.length = 2)
      ∧ ParseInput "in.txt" (Except.ok ["u1", "make", "u2"])
          = Except.error ("parsing " ++ "in.txt" ++ ": missing command line") :=
  ⟨by
    obtain ⟨urls, commands, h, hu, hc, _⟩ :=
      (ParseInput_spec "in.txt" ["u1", "make", "u2", "cmake ."]).1 (by decide)
    exact ⟨urls, commands, h, hu, hc⟩,
    (ParseInput_spec "in.txt" ["u1", "make", "u2"]).2 (by decide)⟩

/-! ## Graph construction from a tool result -/

theorem forRange_map {σ β γ : Type} (body : σ → γ → Option σ) (f : β → γ) (l : List β)
    (st : σ) :
    forRange (fun s x => body s (f x)) st l = forRange body st (l.map f) := by
  induction l generalizing st with
  | nil => rfl
  | cons x l ih =>
    rw [List.map_cons, forRange_cons, forRange_cons]
    cases body st (f x) with
    | none => rfl
    | some st' => simp [ih]

theorem ConvertGctToGraph_eq {α : Type} (order : List Ptr → List Ptr) (gct : GctJson α) :
    ConvertGctToGraph order gct = convertToGraph order (gctIds gct) (gctEdges gct) := by
  simp only [ConvertGctToGraph, convertToGraph, gctIds, gctEdges, List.foldl_map]
  rw [← forRange_map (fun H (edge : String × String × α) =>
    copyEdge _ H edge.1 edge.2.1 edge.2.2) (fun e : GctEdge α => (e.Start, e.End, e.Weight))]

theorem ConvertSctToGraph_eq {α : Type} (order : List Ptr → List Ptr) (json : SctJson α) :
    ConvertSctToGraph order json = convertToGraph order (sctIds json) (sctEdges json) := by
  simp only [ConvertSctToGraph, convertToGraph, sctIds, sctEdges, List.foldl_map]
  rw [← forRange_map (fun H (edge : String × String × α) =>
    copyEdge _ H edge.1 edge.2.1 edge.2.2) (fun e : SctEdge α => (e.Start, e.End, e.Weight))]

theorem MapInv_new {α : Type} : MapInv ([] : Heap α) NodeMap.new := by
  refine ⟨List.nodup_nil, ?_, fun _ _ => rfl, ?_, ?_⟩ <;> simp [NodeMap.new]

theorem MapInv_copyNode {α : Type} (st : Heap α × NodeMap) (id : String)
    (h : MapInv st.1 st.2) :
    MapInv (copyNode st id).1 (copyNode st id).2
      ∧ (∀ k, k ∈ (copyNode st id).2.keys ↔ k ∈ st.2.keys ∨ k = id)
      ∧ (copyNode st id).1.length = st.1.length + 1 := by
  obtain ⟨hnd, hlt, hnone, hinj, hempty⟩ := h
  have hkeys : ∀ k, k ∈ (copyNode st id).2.keys ↔ k ∈ st.2.keys ∨ k = id := by
    intro k
    simp only [copyNode, NodeMap.set]
    split_ifs with hid
    · constructor
      · exact Or.inl
      · rintro (hk | rfl)
        · exact hk
        · exact hid
    · simp
  have hget : ∀ k, (copyNode st id).2.get k
      = if k = id then some st.1.length else st.2.get k := fun k => rfl
  refine ⟨⟨?_, ?_, ?_, ?_, ?_⟩, hkeys, by simp [copyNode]⟩
  · simp only [copyNode, NodeMap.set]
    split_ifs with hid
    · exact hnd
    · exact List.Nodup.append hnd (List.nodup_singleton id) (by simpa using hid)
  · intro k hk
    rw [hget]
    simp only [copyNode, List.length_append, List.length_singleton]
    split_ifs with hkid
    · exact ⟨_, rfl, by omega⟩
    · rcases (hkeys k).mp hk with hk' | hk'
      · obtain ⟨a, ha, hlt'⟩ := hlt k hk'
        exact ⟨a, ha, by omega⟩
      · exact absurd hk' hkid
  · intro k hk
    rw [hget]
    have hk' : ¬(k ∈ st.2.keys ∨ k = id) := fun h' => hk ((hkeys k).mpr h')
    push_neg at hk'
    rw [if_neg hk'.2]
    exact hnone k hk'.1
  · intro k hk k' hk' heq
    rw [hget, hget] at heq
    by_cases h1 : k = id
    · by_cases h2 : k' = id
      · rw [h1, h2]
      · rw [if_pos h1, if_neg h2] at heq
        rcases (hkeys k').mp hk' with hk'' | hk''
        · obtain ⟨a, ha, hlt'⟩ := hlt k' hk''
          rw [ha] at heq
          have := Option.some.inj heq
          omega
        · exact absurd hk'' h2
    · by_cases h2 : k' = id
      · rw [if_neg h1, if_pos h2] at heq
        rcases (hkeys k).mp hk with hk'' | hk''
        · obtain ⟨a, ha, hlt'⟩ := hlt k hk''
          rw [ha] at heq
          have := Option.some.inj heq
          omega
        · exact absurd hk'' h1
      · rw [if_neg h1, if_neg h2] at heq
        rcases (hkeys k).mp hk with hk1 | hk1
        · rcases (hkeys k').mp hk' with hk2 | hk2
          · exact hinj k hk1 k' hk2 heq
          · exact absurd hk2 h2
        · exact absurd hk1 h1
  · intro node hnode
    simp only [copyNode, List.mem_append, List.mem_singleton] at hnode
    rcases hnode with hnode | hnode
    · exact hempty node hnode
    · exact hnode

theorem MapInv_foldl {α : Type} (ids : List String) (st : Heap α × NodeMap)
    (h : MapInv st.1 st.2) :
    MapInv (ids.foldl copyNode st).1 (ids.foldl copyNode st).2
      ∧ (∀ k, k ∈ (ids.foldl copyNode st).2.keys ↔ k ∈ st.2.keys ∨ k ∈ ids)
      ∧ (ids.foldl copyNode st).1.length = st.1.length + ids.length := by
  induction ids generalizing st with
  | nil => simp [h]
  | cons id ids ih =>
    obtain ⟨h1, h2, h3⟩ := MapInv_copyNode st id h
    obtain ⟨h4, h5, h6⟩ := ih (copyNode st id) h1
    refine ⟨h4, ?_, ?_⟩
    · intro k
      rw [List.foldl_cons, h5, h2, List.mem_cons]
      tauto
    · rw [List.foldl_cons, h6, h3, List.length_cons]
      omega

theorem get?_set_heap {α : Type} (H : Heap α) (a c : Nat) (x : GraphNode α)
    (ha : a < H.length) :
    (H.set a x).get? c = if a = c then some x else H.get? c := by
  simp only [List.get?_eq_getElem?, List.getElem?_set]
  split_ifs <;> rfl

theorem update_some {α : Type} (H : Heap α) (a : Nat) (f : GraphNode α → GraphNode α)
    (ha : a < H.length) :
    ∃ node, H.get? a = some node ∧ update H (some a) f = some (H.set a (f node)) := by
  have hget : H.get? a = some (H.get ⟨a, ha⟩) := List.get?_eq_get ha
  exact ⟨_, hget, by simp only [update, hget]⟩

/-- One round of the second loop: the edge is appended to the out-list of the
start node and to the in-list of the end node; nothing else changes. -/
theorem copyEdge_spec {α : Type} (m : NodeMap) (H : Heap α) (start finish : String) (w : α)
    (a b : Nat) (hstart : m.get start = some a) (hfinish : m.get finish = some b)
    (ha : a < H.length) (hb : b < H.length) :
    ∃ H₂, copyEdge m H start finish w = some H₂ ∧ H₂.length = H.length
      ∧ ∀ c node, H.get? c = some node →
          H₂.get? c = some ⟨node.InEdges ++ (if b = c then [⟨some a, w⟩] else []),
            node.OutEdges ++ (if a = c then [⟨some b, w⟩] else [])⟩ := by
  obtain ⟨na, hna, hu1⟩ := update_some H a
    (fun node => ⟨node.InEdges, node.OutEdges ++ [⟨some b, w⟩]⟩) ha
  have hb' : b < (H.set a ⟨na.InEdges, na.OutEdges ++ [⟨some b, w⟩]⟩).length := by
    simpa using hb
  obtain ⟨nb, hnb, hu2⟩ := update_some (H.set a ⟨na.InEdges, na.OutEdges ++ [⟨some b, w⟩]⟩) b
    (fun node => ⟨node.InEdges ++ [⟨some a, w⟩], node.OutEdges⟩) hb'
  refine ⟨(H.set a ⟨na.InEdges, na.OutEdges ++ [⟨some b, w⟩]⟩).set b
    ⟨nb.InEdges ++ [⟨some a, w⟩], nb.OutEdges⟩, ?_, by simp, ?_⟩
  · simp only [copyEdge, hstart, hfinish, hu1, hu2]
  intro c node hc
  rw [get?_set_heap _ b c _ hb', get?_set_heap _ a c _ ha]
  rw [get?_set_heap _ a b _ ha] at hnb
  by_cases hbc : b = c
  · subst hbc
    by_cases hab : a = b
    · subst hab
      rw [if_pos rfl] at hnb
      rw [hna] at hc
      obtain rfl := Option.some.inj hc
      obtain rfl := Option.some.inj hnb
      simp
    · rw [if_neg hab] at hnb
      rw [hnb] at hc
      obtain rfl := Option.some.inj hc
      simp [hab]
  · by_cases hac : a = c
    · subst hac
      rw [hna] at hc
      obtain rfl := Option.some.inj hc
      simp [hbc]
    · rw [if_neg hbc, if_neg hac, hc]
      simp [hbc, hac]

/-- The second loop of the converters, address by address. -/
theorem edgeLoop_spec {α : Type} (m : NodeMap) (n : Nat)
    (hm : ∀ k ∈ m.keys, ∃ a, m.get k = some a ∧ a < n)
    (edges : List (String × String × α))
    (hedges : ∀ e ∈ edges, e.1 ∈ m.keys ∧ e.2.1 ∈ m.keys) (H : Heap α) (hlen : H.length = n) :
    ∃ H', forRange (fun H e => copyEdge m H e.1 e.2.1 e.2.2) H edges = some H'
      ∧ H'.length = n
      ∧ ∀ c node, H.get? c = some node →
          H'.get? c = some ⟨node.InEdges ++ inEntries m edges c,
            node.OutEdges ++ outEntries m edges c⟩ := by
  induction edges generalizing H with
  | nil =>
    refine ⟨H, rfl, hlen, ?_⟩
    intro c node hc
    rw [hc]
    simp [inEntries, outEntries]
  | cons e edges ih =>
    obtain ⟨he1, he2⟩ := hedges e (by simp)
    obtain ⟨a, hma, ha⟩ := hm e.1 he1
    obtain ⟨b, hmb, hb⟩ := hm e.2.1 he2
    obtain ⟨H₂, hrun, hlen₂, hspec₂⟩ := copyEdge_spec m H e.1 e.2.1 e.2.2 a b hma hmb
      (by omega) (by omega)
    obtain ⟨H', hrun', hlen', hspec'⟩ := ih (fun x hx => hedges x (by simp [hx])) H₂
      (by omega)
    refine ⟨H', by rw [forRange_cons, hrun, Option.some_bind, hrun'], hlen', ?_⟩
    intro c node hc
    rw [hspec' c _ (hspec₂ c node hc)]
    simp only [inEntries, outEntries, List.filter_cons, hma, hmb, Option.some.injEq,
      List.append_assoc]
    by_cases hbc : b = c <;> by_cases hac : a = c <;> simp [hbc, hac, hma, hmb]

/-- The converters on a tool result whose edges all reference listed ids. -/
theorem convertToGraph_spec {α : Type} (order : List Ptr → List Ptr)
    (horder : ∀ l, (order l).Perm l) (ids : List String) (edges : List (String × String × α))
    (hedges : ∀ e ∈ edges, e.1 ∈ ids ∧ e.2.1 ∈ ids) :
    ∃ H g ptr, convertToGraph order ids edges = some (H, g) ∧ Represents H g ptr ids edges := by
  obtain ⟨hinv, hkeys, _⟩ := MapInv_foldl ids (([] : Heap α), NodeMap.new) MapInv_new
  obtain ⟨hnd, hlt, _, hinj, hempty⟩ := hinv
  have hkeys' : ∀ k, k ∈ (ids.foldl copyNode (([] : Heap α), NodeMap.new)).2.keys ↔ k ∈ ids := by
    intro k
    rw [hkeys]
    simp [NodeMap.new]
  obtain ⟨H', hrun, _, hspec⟩ := edgeLoop_spec
    (ids.foldl copyNode (([] : Heap α), NodeMap.new)).2
    (ids.foldl copyNode (([] : Heap α), NodeMap.new)).1.length hlt edges
    (fun e he => ⟨(hkeys' _).mpr (hedges e he).1, (hkeys' _).mpr (hedges e he).2⟩)
    (ids.foldl copyNode (([] : Heap α), NodeMap.new)).1 rfl
  refine ⟨H', order ((ids.foldl copyNode (([] : Heap α), NodeMap.new)).2.keys.map
      (ids.foldl copyNode (([] : Heap α), NodeMap.new)).2.get),
    (ids.foldl copyNode (([] : Heap α), NodeMap.new)).2.get,
    by simp only [convertToGraph, hrun], ?_, ?_, ?_⟩
  · refine (horder _).trans (List.Perm.map _ ?_)
    rw [List.perm_ext_iff_of_nodup hnd (List.nodup_dedup ids)]
    intro k
    rw [hkeys', List.mem_dedup]
  · intro k hk k' hk' heq
    exact hinj k ((hkeys' k).mpr hk) k' ((hkeys' k').mpr hk') heq
  · intro k hk
    obtain ⟨c, hc, hclt⟩ := hlt k ((hkeys' k).mpr hk)
    have hget : (ids.foldl copyNode (([] : Heap α), NodeMap.new)).1.get? c
        = some ⟨[], []⟩ := by
      rw [List.get?_eq_get hclt, hempty _ (List.get_mem _ _ _)]
    have := hspec c _ hget
    rw [hc]
    simp only [deref, this, List.nil_append, inEntries, outEntries, Option.some.injEq,
      GraphNode.mk.injEq]
    constructor
    · congr 1
      apply List.filter_congr
      intro e he
      rw [Bool.eq_iff_iff]
      simp only [decide_eq_true_eq]
      constructor
      · intro h
        exact hinj _ ((hkeys' _).mpr (hedges e he).2) k ((hkeys' k).mpr hk) (h.trans hc.symm)
      · intro h
        rw [h, hc]
    · congr 1
      apply List.filter_congr
      intro e he
      rw [Bool.eq_iff_iff]
      simp only [decide_eq_true_eq]
      constructor
      · intro h
        exact hinj _ ((hkeys' _).mpr (hedges e he).1) k ((hkeys' k).mpr hk) (h.trans hc.symm)
      · intro h
        rw [h, hc]

theorem Represents_mem {α : Type} (H : Heap α) (g : Graph) (ptr : String → Ptr)
    (ids : List String) (edges : List (String × String × α))
    (hrep : Represents H g ptr ids edges) (u : Ptr) :
    u ∈ g ↔ ∃ k ∈ ids, ptr k = u := by
  rw [hrep.1.mem_iff, List.mem_map]
  simp only [List.mem_dedup]

theorem Represents_counts {α : Type} (H : Heap α) (g : Graph) (ptr : String → Ptr)
    (ids : List String) (edges : List (String × String × α))
    (hrep : Represents H g ptr ids edges) (hedges : ∀ e ∈ edges, e.1 ∈ ids ∧ e.2.1 ∈ ids)
    (k k' : String) (hk : k ∈ ids) (hk' : k' ∈ ids) :
    outCount H (ptr k) (ptr k') = inCount H (ptr k') (ptr k)
      ∧ outCount H (ptr k) (ptr k')
          = edges.countP fun e => decide (e.1 = k) && decide (e.2.1 = k') := by
  obtain ⟨_, hinj, hnode⟩ := hrep
  have hout : outCount H (ptr k) (ptr k')
      = edges.countP fun e => decide (e.1 = k) && decide (e.2.1 = k') := by
    simp only [outCount, hnode k hk, List.countP_map, List.countP_filter]
    apply List.countP_congr
    intro e he
    simp only [Function.comp, Bool.and_eq_true, decide_eq_true_eq]
    constructor
    · rintro ⟨h1, h2⟩
      exact ⟨h2, hinj _ (hedges e he).2 k' hk' h1⟩
    · rintro ⟨h1, h2⟩
      exact ⟨by rw [h2], h1⟩
  have hin : inCount H (ptr k') (ptr k)
      = edges.countP fun e => decide (e.1 = k) && decide (e.2.1 = k') := by
    simp only [inCount, hnode k' hk', List.countP_map, List.countP_filter]
    apply List.countP_congr
    intro e he
    simp only [Function.comp, Bool.and_eq_true, decide_eq_true_eq]
    constructor
    · rintro ⟨h1, h2⟩
      exact ⟨hinj _ (hedges e he).1 k hk h1, h2⟩
    · rintro ⟨h1, h2⟩
      exact ⟨by rw [h1], h2⟩
  exact ⟨hout.trans hin.symm, hout⟩

/-- A graph that represents a tool result whose edges reference listed ids is
well-formed, has no nil pointer and holds every node once. -/
theorem Represents_wellFormed {α : Type} (H : Heap α) (g : Graph) (ptr : String → Ptr)
    (ids : List String) (edges : List (String × String × α))
    (hrep : Represents H g ptr ids edges) (hedges : ∀ e ∈ edges, e.1 ∈ ids ∧ e.2.1 ∈ ids) :
    g.Nodup ∧ g.length = ids.dedup.length ∧ WellFormed H g = true ∧ Closed H g = true
      ∧ ∀ u ∈ g, ∀ v ∈ g, outCount H u v = inCount H v u := by
  have hmem := Represents_mem H g ptr ids edges hrep
  have hcounts : ∀ u ∈ g, ∀ v ∈ g, outCount H u v = inCount H v u := by
    intro u hu v hv
    obtain ⟨k, hk, rfl⟩ := (hmem u).mp hu
    obtain ⟨k', hk', rfl⟩ := (hmem v).mp hv
    exact (Represents_counts H g ptr ids edges hrep hedges k k' hk hk').1
  have hends : ∀ k ∈ ids, ∀ node, deref H (ptr k) = some node →
      ∀ e ∈ node.InEdges ++ node.OutEdges, ∃ k' ∈ ids, ptr k' = e.Node := by
    intro k hk node hnode e he
    rw [hrep.2.2 k hk] at hnode
    obtain rfl := Option.some.inj hnode
    simp only [List.mem_append, List.mem_map, List.mem_filter, decide_eq_true_eq] at he
    rcases he with ⟨x, ⟨hx, _⟩, rfl⟩ | ⟨x, ⟨hx, _⟩, rfl⟩
    · exact ⟨x.1, (hedges x hx).1, rfl⟩
    · exact ⟨x.2.1, (hedges x hx).2, rfl⟩
  refine ⟨?_, ?_, ?_, ?_, hcounts⟩
  · exact hrep.1.nodup_iff.mpr
      (List.Nodup.map_on (fun x hx y hy h =>
        hrep.2.1 x (List.mem_dedup.mp hx) y (List.mem_dedup.mp hy) h) (List.nodup_dedup ids))
  · rw [hrep.1.length_eq, List.length_map]
  · simp only [WellFormed, List.all_eq_true]
    intro u hu
    obtain ⟨k, hk, rfl⟩ := (hmem u).mp hu
    have hends' := hends k hk _ (hrep.2.2 k hk)
    rw [hrep.2.2 k hk]
    simp only [Bool.and_eq_true, List.all_eq_true, decide_eq_true_eq]
    refine ⟨fun e he => ?_, fun v hv => hcounts _ hu v hv⟩
    obtain ⟨k', hk', hptr⟩ := hends' e he
    exact (hmem _).mpr ⟨k', hk', hptr⟩
  · simp only [Closed, List.all_eq_true]
    intro u hu
    obtain ⟨k, hk, rfl⟩ := (hmem u).mp hu
    have hends' := hends k hk _ (hrep.2.2 k hk)
    rw [hrep.2.2 k hk]
    simp only [List.all_eq_true]
    intro e he
    obtain ⟨k', hk', hptr⟩ := hends' e he
    rw [← hptr, hrep.2.2 k' hk']
    rfl

theorem copyEdge_none {α : Type} (m : NodeMap) (H : Heap α) (start finish : String) (w : α)
    (h : m.get start = none ∨ m.get finish = none) :
    copyEdge m H start finish w = none := by
  unfold copyEdge
  rcases h with h | h
  · simp [h, update]
  · simp only [h]
    cases update H (m.get start) fun node =>
        ⟨node.InEdges, node.OutEdges ++ [⟨none, w⟩]⟩ with
    | none => rfl
    | some H₁ => simp [update]

/-- An edge that references an id that is not listed makes the converters
panic. -/
theorem convertToGraph_none {α : Type} (order : List Ptr → List Ptr) (ids : List String)
    (edges : List (String × String × α))
    (h : ∃ e ∈ edges, e.1 ∉ ids ∨ e.2.1 ∉ ids) :
    convertToGraph order ids edges = none := by
  obtain ⟨e, he, hbad⟩ := h
  obtain ⟨hinv, hkeys, _⟩ := MapInv_foldl ids (([] : Heap α), NodeMap.new) MapInv_new
  obtain ⟨_, _, hnone, _, _⟩ := hinv
  have hget : ∀ k, k ∉ ids → (ids.foldl copyNode (([] : Heap α), NodeMap.new)).2.get k = none := by
    intro k hk
    apply hnone
    rw [hkeys]
    simpa [NodeMap.new] using hk
  obtain ⟨s, t, rfl⟩ := List.append_of_mem he
  have hrun : forRange (fun H (e : String × String × α) =>
      copyEdge (ids.foldl copyNode (([] : Heap α), NodeMap.new)).2 H e.1 e.2.1 e.2.2)
      (ids.foldl copyNode (([] : Heap α), NodeMap.new)).1 (s ++ e :: t) = none := by
    rw [forRange_append]
    cases forRange (fun H (e : String × String × α) =>
      copyEdge (ids.foldl copyNode (([] : Heap α), NodeMap.new)).2 H e.1 e.2.1 e.2.2)
      (ids.foldl copyNode (([] : Heap α), NodeMap.new)).1 s with
    | none => rfl
    | some H₁ =>
      rw [Option.some_bind, forRange_cons, copyEdge_none]
      · rfl
      · rcases hbad with hbad | hbad
        · exact Or.inl (hget _ hbad)
        · exact Or.inr (hget _ hbad)
  simp only [convertToGraph, hrun]

theorem convertToGraph_built {α : Type} (order : List Ptr → List Ptr)
    (horder : ∀ l, (order l).Perm l) (ids : List String) (edges : List (String × String × α))
    (hedges : ∀ e ∈ edges, e.1 ∈ ids ∧ e.2.1 ∈ ids) :
    BuiltFrom (convertToGraph order ids edges) ids edges := by
  obtain ⟨H, g, ptr, hconv, hrep⟩ := convertToGraph_spec order horder ids edges hedges
  obtain ⟨hnd, hlen, hwf, _, hcounts⟩ := Represents_wellFormed H g ptr ids edges hrep hedges
  refine ⟨H, g, ptr, hconv, hrep, hnd, hlen, hwf, ?_, hcounts⟩
  intro k hk k' hk'
  obtain ⟨h1, h2⟩ := Represents_counts H g ptr ids edges hrep hedges k k' hk hk'
  exact ⟨h2, h1 ▸ h2⟩

/-- C13. For every tool result whose edges all reference listed node ids, and
whatever order the runtime ranges over the map in, `ConvertGctToGraph` and
`ConvertSctToGraph` return a graph with exactly one node per distinct node id
in which the out-list of the node of an id holds exactly one entry for every
input edge that starts at the id (pointing at the node of the end, with the
weight of the edge) and its in-list exactly one entry for every input edge
that ends at the id (pointing at the node of the start, with the weight), and
no other entries; hence for all nodes `u`, `v` the number of out-entries of `u`
pointing at `v` equals the number of in-entries of `v` pointing at `u`. -/
theorem converters_record_every_edge {α : Type} (order : List Ptr → List Ptr)
    (horder : ∀ l, (order l).Perm l) :
    (∀ gct : GctJson α,
        (∀ e ∈ gct.Edges, e.Start ∈ gctIds gct ∧ e.End ∈ gctIds gct) →
        BuiltFrom (ConvertGctToGraph order gct) (gctIds gct) (gctEdges gct))
      ∧ ∀ json : SctJson α,
        (∀ e ∈ json.Edges, e.Start ∈ sctIds json ∧ e.End ∈ sctIds json) →
        BuiltFrom (ConvertSctToGraph order json) (sctIds json) (sctEdges json) := by
  constructor
  · intro gct hedges
    rw [ConvertGctToGraph_eq]
    apply convertToGraph_built order horder
    intro e he
    obtain ⟨x, hx, rfl⟩ := List.mem_map.mp he
    exact hedges x hx
  · intro json hedges
    rw [ConvertSctToGraph_eq]
    apply convertToGraph_built order horder
    intro e he
    obtain ⟨x, hx, rfl⟩ := List.mem_map.mp he
    exact hedges x hx

theorem converters_record_every_edge_witness :
    (∀ l : List Ptr, (id l).Perm l)
      ∧ (∀ e ∈ (abcGct (2 : ℚ) 1).Edges,
          e.Start ∈ gctIds (abcGct (2 : ℚ) 1) ∧ e.End ∈ gctIds (abcGct (2 : ℚ) 1))
      ∧ BuiltFrom (ConvertGctToGraph id (abcGct (2 : ℚ) 1)) (gctIds (abcGct (2 : ℚ) 1))
          (gctEdges (abcGct (2 : ℚ) 1))
      ∧ (∀ e ∈ (abcSct (2 : ℚ) 1).Edges,
          e.Start ∈ sctIds (abcSct (2 : ℚ) 1) ∧ e.End ∈ sctIds (abcSct (2 : ℚ) 1))
      ∧ BuiltFrom (ConvertSctToGraph id (abcSct (2 : ℚ) 1)) (sctIds (abcSct (2 : ℚ) 1))
          (sctEdges (abcSct (2 : ℚ) 1)) :=
  ⟨fun l => List.Perm.refl l, by decide,
    (converters_record_every_edge id (fun l => List.Perm.refl l)).1 (abcGct (2 : ℚ) 1)
      (by decide),
    by decide,
    (converters_record_every_edge id (fun l => List.Perm.refl l)).2 (abcSct (2 : ℚ) 1)
      (by decide)⟩

/-- C14. For every tool result containing an edge whose Start or End id is not
among the listed node ids, `ConvertGctToGraph` and `ConvertSctToGraph` fail
(they panic on the nil pointer the map lookup gives) and return no graph, and
so do `AnalyseGctOutput` and `AnalyseSctOutput`: no estimator result is
produced, and no graph is returned in which the edge is missing or attached
to one endpoint only. -/
theorem converters_fail_on_unknown_id {α : Type} [LinearOrderedField α] (log2 : α → α)
    (order : List Ptr → List Ptr) :
    (∀ gct : GctJson α,
        (∃ e ∈ gct.Edges, e.Start ∉ gctIds gct ∨ e.End ∉ gctIds gct) →
        ConvertGctToGraph order gct = none ∧ AnalyseGctOutput log2 order gct = none)
      ∧ ∀ json : SctJson α,
        (∃ e ∈ json.Edges, e.Start ∉ sctIds json ∨ e.End ∉ sctIds json) →
        ConvertSctToGraph order json = none ∧ AnalyseSctOutput log2 order json = none := by
  constructor
  · intro gct ⟨e, he, hbad⟩
    have hnone : ConvertGctToGraph order gct = none := by
      rw [ConvertGctToGraph_eq]
      exact convertToGraph_none order _ _
        ⟨(e.Start, e.End, e.Weight), List.mem_map.mpr ⟨e, he, rfl⟩, hbad⟩
    exact ⟨hnone, by simp only [AnalyseGctOutput, hnone]⟩
  · intro json ⟨e, he, hbad⟩
    have hnone : ConvertSctToGraph order json = none := by
      rw [ConvertSctToGraph_eq]
      exact convertToGraph_none order _ _
        ⟨(e.Start, e.End, e.Weight), List.mem_map.mpr ⟨e, he, rfl⟩, hbad⟩
    exact ⟨hnone, by simp only [AnalyseSctOutput, hnone]⟩

theorem converters_fail_on_unknown_id_witness :
    (∃ e ∈ (danglingGct (1 : ℚ)).Edges,
        e.Start ∉ gctIds (danglingGct (1 : ℚ)) ∨ e.End ∉ gctIds (danglingGct (1 : ℚ)))
      ∧ ConvertGctToGraph id (danglingGct (1 : ℚ)) = none
      ∧ AnalyseGctOutput (fun x => x) id (danglingGct (1 : ℚ)) = none
      ∧ (∃ e ∈ (danglingSct (1 : ℚ)).Edges,
          e.Start ∉ sctIds (danglingSct (1 : ℚ)) ∨ e.End ∉ sctIds (danglingSct (1 : ℚ)))
      ∧ ConvertSctToGraph id (danglingSct (1 : ℚ)) = none
      ∧ AnalyseSctOutput (fun x => x) id (danglingSct (1 : ℚ)) = none :=
  ⟨by decide,
    ((converters_fail_on_unknown_id (fun x : ℚ => x) id).1 (danglingGct (1 : ℚ))
      (by decide)).1,
    ((converters_fail_on_unknown_id (fun x : ℚ => x) id).1 (danglingGct (1 : ℚ))
      (by decide)).2,
    by decide,
    ((converters_fail_on_unknown_id (fun x : ℚ => x) id).2 (danglingSct (1 : ℚ))
      (by decide)).1,
    ((converters_fail_on_unknown_id (fun x : ℚ => x) id).2 (danglingSct (1 : ℚ))
      (by decide)).2⟩

/-! ## Degree statistics -/

theorem SumWeights_length {α : Type} [Field α] (H : Heap α) (g : Graph) :
    ∀ degrees, SumWeights H g = some degrees → degrees.length = g.length := by
  induction g with
  | nil =>
    intro degrees h
    simp only [SumWeights, Option.some.injEq] at h
    simp [← h]
  | cons p g ih =>
    intro degrees h
    simp only [SumWeights] at h
    cases hp : deref H p with
    | none => simp [hp] at h
    | some node =>
      cases hg : SumWeights H g with
      | none => simp [hp, hg] at h
      | some rest =>
        simp only [hp, hg, Option.some.injEq] at h
        simp [← h, ih rest hg]

theorem EstGraphComplexity_isSome {α : Type} [Field α] (log2 : α → α) (H : Heap α) (g : Graph)
    (hcl : Closed H g = true) : ∃ c, EstGraphComplexity log2 H g = some c := by
  have hres := Resolved_of_Closed H g hcl
  have hE : EdgeOnlyGraph H g = some (g.filter (hasEdges H)) := by
    rw [EdgeOnlyGraph_eq, if_pos hres]
  have hclE := Closed_filter H g (hasEdges H) hcl
  have hsize := EstGraphSize_eq_closed log2 H _ hclE
  have hsub := EstIGraphSize_isSome log2 H _ (Resolved_of_Closed H _ hclE)
  have hloop := complexityLoop_sum log2 H (g.filter (hasEdges H)) _
    (List.range (g.filter (hasEdges H)).length) (fun i hi => hsub i (List.mem_range.mp hi)) 0
  simp only [EstGraphComplexity, hE, hloop, hsize]
  exact ⟨_, rfl⟩

theorem analyseGraph_closed {α : Type} [LinearOrderedField α] (log2 : α → α) (H : Heap α)
    (g : Graph) (hcl : Closed H g = true) :
    ∃ m, analyseGraph log2 H g = some m
      ∧ m.sum = ((g.map (specDegree H)).foldl degreeStep (0, 0)).1
      ∧ m.maximum = ((g.map (specDegree H)).foldl degreeStep (0, 0)).2
      ∧ m.avg = divByLen ((g.map (specDegree H)).foldl degreeStep (0, 0)).1 g.length := by
  have hsum := SumWeights_eq_map H g (Resolved_of_Closed H g hcl)
  have hsize := EstGraphSize_eq_closed log2 H g hcl
  obtain ⟨c, hc⟩ := EstGraphComplexity_isSome log2 H g hcl
  simp only [analyseGraph, hsum, hsize, hc]
  exact ⟨_, rfl, rfl, rfl, by simp⟩

theorem analyseGraph_avg {α : Type} [LinearOrderedField α] (log2 : α → α) (H : Heap α)
    (g : Graph) (hlen : 1 ≤ g.length) (m : Metrics α) (h : analyseGraph log2 H g = some m) :
    ∃ avg, m.avg = some avg := by
  simp only [analyseGraph] at h
  cases hs : SumWeights H g with
  | none => simp [hs] at h
  | some degrees =>
    have hd := SumWeights_length H g degrees hs
    cases hsize : EstGraphSize log2 H g with
    | none => simp [hs, hsize] at h
    | some size =>
      cases hc : EstGraphComplexity log2 H g with
      | none => simp [hs, hsize, hc] at h
      | some c =>
        simp only [hs, hsize, hc, Option.some.injEq] at h
        subst h
        have hne : degrees.length ≠ 0 := by omega
        simp only [divByLen, if_neg hne]
        exact ⟨_, rfl⟩

theorem convertToGraph_nonempty {α : Type} (order : List Ptr → List Ptr)
    (horder : ∀ l, (order l).Perm l) (ids : List String) (edges : List (String × String × α))
    (hids : ids ≠ []) (H : Heap α) (g : Graph)
    (h : convertToGraph order ids edges = some (H, g)) : 1 ≤ g.length := by
  obtain ⟨_, hkeys, _⟩ := MapInv_foldl ids (([] : Heap α), NodeMap.new) MapInv_new
  simp only [convertToGraph] at h
  cases hrun : forRange (fun H (e : String × String × α) =>
      copyEdge (ids.foldl copyNode (([] : Heap α), NodeMap.new)).2 H e.1 e.2.1 e.2.2)
      (ids.foldl copyNode (([] : Heap α), NodeMap.new)).1 edges with
  | none => simp [hrun] at h
  | some H' =>
    simp only [hrun, Option.some.injEq, Prod.mk.injEq] at h
    obtain ⟨_, rfl⟩ := h
    rw [(horder _).length_eq, List.length_map]
    obtain ⟨k, hk⟩ := List.exists_mem_of_ne_nil ids hids
    exact List.length_pos_of_mem ((hkeys k).mpr (Or.inr hk))

theorem analysis_divisor {α : Type} [LinearOrderedField α] (log2 : α → α)
    (order : List Ptr → List Ptr) (horder : ∀ l, (order l).Perm l) (ids : List String)
    (edges : List (String × String × α)) (hids : ids ≠ []) :
    (∀ H g, convertToGraph order ids edges = some (H, g) →
        1 ≤ g.length
          ∧ (∀ degrees, SumWeights H g = some degrees → 1 ≤ degrees.length)
          ∧ ∀ m, analyseGraph log2 H g = some m → ∃ avg, m.avg = some avg)
      ∧ ((∀ e ∈ edges, e.1 ∈ ids ∧ e.2.1 ∈ ids) →
        ∃ H g m avg, convertToGraph order ids edges = some (H, g)
          ∧ analyseGraph log2 H g = some m ∧ m.avg = some avg) := by
  have hfirst : ∀ H g, convertToGraph order ids edges = some (H, g) →
      1 ≤ g.length
        ∧ (∀ degrees, SumWeights H g = some degrees → 1 ≤ degrees.length)
        ∧ ∀ m, analyseGraph log2 H g = some m → ∃ avg, m.avg = some avg := by
    intro H g hconv
    have hlen := convertToGraph_nonempty order horder ids edges hids H g hconv
    refine ⟨hlen, ?_, fun m hm => analyseGraph_avg log2 H g hlen m hm⟩
    intro degrees hd
    rw [SumWeights_length H g degrees hd]
    exact hlen
  refine ⟨hfirst, fun hedges => ?_⟩
  obtain ⟨H, g, ptr, hconv, hrep⟩ := convertToGraph_spec order horder ids edges hedges
  obtain ⟨_, _, _, hcl, _⟩ := Represents_wellFormed H g ptr ids edges hrep hedges
  obtain ⟨m, hm, _⟩ := analyseGraph_closed log2 H g hcl
  obtain ⟨avg, havg⟩ := (hfirst H g hconv).2.2 m hm
  exact ⟨H, g, m, avg, hconv, hm, havg⟩

theorem ParseGctOutput_ok {α : Type} (file : Except String (GctJson α)) (gctJson : GctJson α)
    (h : ParseGctOutput file = Except.ok gctJson) :
    file = Except.ok gctJson ∧ gctJson.Nodes ≠ [] := by
  unfold ParseGctOutput at h
  cases file with
  | error err => simp at h
  | ok j =>
    simp only at h
    split_ifs at h with hlen
    · simp only [Except.ok.injEq] at h
      subst h
      exact ⟨rfl, fun hnil => hlen (by simp [hnil])⟩

theorem ParseSctOutput_ok {α : Type} (file : Except String (SctJson α)) (sctJson : SctJson α)
    (h : ParseSctOutput file = Except.ok sctJson) :
    file = Except.ok sctJson ∧ sctJson.Nodes ≠ [] := by
  unfold ParseSctOutput at h
  cases file with
  | error err => simp at h
  | ok j =>
    simp only at h
    split_ifs at h with hlen
    · simp only [Except.ok.injEq] at h
      subst h
      exact ⟨rfl, fun hnil => hlen (by simp [hnil])⟩

/-- C15. An average over zero nodes is never reported: a parsed tool result
with an empty node list is rejected by the validation of the parse step with
the error 'empty gct graph' / 'empty sct graph', and the analysis is not run;
for every result that passes the validation, every graph the converter builds
has at least one node, so the divisor `len(degrees)` of `AvgGcd` / `AvgScd` is
`>= 1` and the average the analysis returns is an ordinary number; when the
edges reference listed ids the analysis does return. -/
theorem average_has_divisor {α : Type} [LinearOrderedField α] (log2 : α → α)
    (order : List Ptr → List Ptr) (horder : ∀ l, (order l).Perm l) :
    (∀ gctJson : GctJson α, gctJson.Nodes = [] →
        ParseGctOutput (Except.ok gctJson) = Except.error "empty gct graph"
          ∧ parseAndAnalyseGct log2 order (Except.ok gctJson) = Except.error "empty gct graph")
      ∧ (∀ (file : Except String (GctJson α)) (gctJson : GctJson α),
          ParseGctOutput file = Except.ok gctJson →
          parseAndAnalyseGct log2 order file = Except.ok (AnalyseGctOutput log2 order gctJson)
            ∧ (∀ H g, ConvertGctToGraph order gctJson = some (H, g) →
                1 ≤ g.length ∧ ∀ degrees, SumWeights H g = some degrees → 1 ≤ degrees.length)
            ∧ (∀ r, AnalyseGctOutput log2 order gctJson = some r → ∃ avg, r.AvgGcd = some avg)
            ∧ ((∀ e ∈ gctJson.Edges, e.Start ∈ gctIds gctJson ∧ e.End ∈ gctIds gctJson) →
                ∃ r avg, AnalyseGctOutput log2 order gctJson = some r ∧ r.AvgGcd = some avg))
      ∧ (∀ sctJson : SctJson α, sctJson.Nodes = [] →
          ParseSctOutput (Except.ok sctJson) = Except.error "empty sct graph"
            ∧ parseAndAnalyseSct log2 order (Except.ok sctJson)
              = Except.error "empty sct graph")
      ∧ ∀ (file : Except String (SctJson α)) (sctJson : SctJson α),
          ParseSctOutput file = Except.ok sctJson →
          parseAndAnalyseSct log2 order file = Except.ok (AnalyseSctOutput log2 order sctJson)
            ∧ (∀ H g, ConvertSctToGraph order sctJson = some (H, g) →
                1 ≤ g.length ∧ ∀ degrees, SumWeights H g = some degrees → 1 ≤ degrees.length)
            ∧ (∀ r, AnalyseSctOutput log2 order sctJson = some r → ∃ avg, r.AvgScd = some avg)
            ∧ ((∀ e ∈ sctJson.Edges, e.Start ∈ sctIds sctJson ∧ e.End ∈ sctIds sctJson) →
                ∃ r avg, AnalyseSctOutput log2 order sctJson = some r ∧ r.AvgScd = some avg) := by
  refine ⟨?_, ?_, ?_, ?_⟩
  · intro gctJson hnil
    simp [ParseGctOutput, parseAndAnalyseGct, hnil]
  · intro file gctJson hparse
    obtain ⟨rfl, hne⟩ := ParseGctOutput_ok file gctJson hparse
    have hids : gctIds gctJson ≠ [] := by simpa [gctIds] using hne
    obtain ⟨h1, h2⟩ := analysis_divisor log2 order horder (gctIds gctJson) (gctEdges gctJson) hids
    refine ⟨by simp only [parseAndAnalyseGct, hparse], ?_, ?_, ?_⟩
    · intro H g hconv
      rw [ConvertGctToGraph_eq] at hconv
      exact ⟨(h1 H g hconv).1, (h1 H g hconv).2.1⟩
    · intro r hr
      simp only [AnalyseGctOutput] at hr
      cases hconv : ConvertGctToGraph order gctJson with
      | none => simp [hconv] at hr
      | some Hg =>
        obtain ⟨H, g⟩ := Hg
        cases hm : analyseGraph log2 H g with
        | none => simp [hconv, hm] at hr
        | some m =>
          simp only [hconv, hm, Option.some.injEq] at hr
          subst hr
          rw [ConvertGctToGraph_eq] at hconv
          exact (h1 H g hconv).2.2 m hm
    · intro hedges
      obtain ⟨H, g, m, avg, hconv, hm, havg⟩ := h2 (by
        intro e he
        obtain ⟨x, hx, rfl⟩ := List.mem_map.mp he
        exact hedges x hx)
      rw [← ConvertGctToGraph_eq] at hconv
      exact ⟨⟨m.sum, m.maximum, m.avg, m.size, m.complexity⟩, avg,
        by simp only [AnalyseGctOutput, hconv, hm], havg⟩
  · intro sctJson hnil
    simp [ParseSctOutput, parseAndAnalyseSct, hnil]
  · intro file sctJson hparse
    obtain ⟨rfl, hne⟩ := ParseSctOutput_ok file sctJson hparse
    have hids : sctIds sctJson ≠ [] := by simpa [sctIds] using hne
    obtain ⟨h1, h2⟩ := analysis_divisor log2 order horder (sctIds sctJson) (sctEdges sctJson) hids
    refine ⟨by simp only [parseAndAnalyseSct, hparse], ?_, ?_, ?_⟩
    · intro H g hconv
      rw [ConvertSctToGraph_eq] at hconv
      exact ⟨(h1 H g hconv).1, (h1 H g hconv).2.1⟩
    · intro r hr
      simp only [AnalyseSctOutput] at hr
      cases hconv : ConvertSctToGraph order sctJson with
      | none => simp [hconv] at hr
      | some Hg =>
        obtain ⟨H, g⟩ := Hg
        cases hm : analyseGraph log2 H g with
        | none => simp [hconv, hm] at hr
        | some m =>
          simp only [hconv, hm, Option.some.injEq] at hr
          subst hr
          rw [ConvertSctToGraph_eq] at hconv
          exact (h1 H g hconv).2.2 m hm
    · intro hedges
      obtain ⟨H, g, m, avg, hconv, hm, havg⟩ := h2 (by
        intro e he
        obtain ⟨x, hx, rfl⟩ := List.mem_map.mp he
        exact hedges x hx)
      rw [← ConvertSctToGraph_eq] at hconv
      exact ⟨⟨m.sum, m.maximum, m.avg, m.size, m.complexity⟩, avg,
        by simp only [AnalyseSctOutput, hconv, hm], havg⟩

theorem average_has_divisor_witness :
    (∀ l : List Ptr, (id l).Perm l)
      ∧ ParseGctOutput (Except.ok (⟨[], []⟩ : GctJson ℚ)) = Except.error "empty gct graph"
      ∧ ParseGctOutput (Except.ok (abcGct (2 : ℚ) 1)) = Except.ok (abcGct (2 : ℚ) 1)
      ∧ (∃ r avg, AnalyseGctOutput (fun x => x) id (abcGct (2 : ℚ) 1) = some r
          ∧ r.AvgGcd = some avg)
      ∧ ParseSctOutput (Except.ok (⟨[], []⟩ : SctJson ℚ)) = Except.error "empty sct graph"
      ∧ ParseSctOutput (Except.ok (abcSct (2 : ℚ) 1)) = Except.ok (abcSct (2 : ℚ) 1)
      ∧ ∃ r avg, AnalyseSctOutput (fun x => x) id (abcSct (2 : ℚ) 1) = some r
          ∧ r.AvgScd = some avg :=
  ⟨fun l => List.Perm.refl l,
    ((average_has_divisor (fun x : ℚ => x) id (fun l => List.Perm.refl l)).1 ⟨[], []⟩ rfl).1,
    rfl,
    ((average_has_divisor (fun x : ℚ => x) id (fun l => List.Perm.refl l)).2.1
      (Except.ok (abcGct (2 : ℚ) 1)) (abcGct (2 : ℚ) 1) rfl).2.2.2 (by decide),
    ((average_has_divisor (fun x : ℚ => x) id (fun l => List.Perm.refl l)).2.2.1
      ⟨[], []⟩ rfl).1,
    rfl,
    ((average_has_divisor (fun x : ℚ => x) id (fun l => List.Perm.refl l)).2.2.2
      (Except.ok (abcSct (2 : ℚ) 1)) (abcSct (2 : ℚ) 1) rfl).2.2.2 (by decide)⟩

theorem degreeStep_comm {α : Type} [LinearOrderedField α] (st : α × α) (x y : α) :
    degreeStep (degreeStep st x) y = degreeStep (degreeStep st y) x := by
  simp only [degreeStep, Prod.mk.injEq]
  refine ⟨by ring, ?_⟩
  have hmax : ∀ (m v : α), (if v > m then v else m) = max m v := by
    intro m v
    rw [max_def]
    by_cases h : v > m
    · rw [if_pos h, if_pos (le_of_lt h)]
    · rw [if_neg h]
      by_cases h' : m ≤ v
      · rw [if_pos h']
        exact le_antisymm h' (not_lt.mp h)
      · rw [if_neg h']
  rw [hmax, hmax, hmax, hmax, max_assoc, max_assoc, max_comm x y]

/-- The sum and the maximum of the degrees do not depend on the order of the
nodes. -/
theorem degreeFold_perm {α : Type} [LinearOrderedField α] {l l' : List α} (h : l.Perm l')
    (st : α × α) : l.foldl degreeStep st = l'.foldl degreeStep st :=
  List.Perm.foldl_eq' h (fun x _ y _ z => degreeStep_comm z x y) st

/-- C12. For the git-coupling result with nodes a, b, c and edges a -> b
(weight 2.0) and b -> c (weight 1.0), `AnalyseGctOutput` returns
`SumGcd = 6.0`, `MaxGcd = 3.0` and `AvgGcd = 2.0`, whatever order the runtime
puts the nodes in the graph in; the degrees of the three nodes are a: 2.0,
b: 3.0, c: 1.0. -/
theorem abc_gct_metrics {α : Type} [LinearOrderedField α] (log2 : α → α)
    (order : List Ptr → List Ptr) (horder : ∀ l, (order l).Perm l) :
    ∃ r, AnalyseGctOutput log2 order (abcGct (2 : α) 1) = some r
      ∧ r.SumGcd = 6 ∧ r.MaxGcd = 3 ∧ r.AvgGcd = some 2
      ∧ ∃ (H : Heap α) (g : Graph) (ptr : String → Ptr),
          ConvertGctToGraph order (abcGct (2 : α) 1) = some (H, g)
          ∧ g.Perm [ptr "a", ptr "b", ptr "c"]
          ∧ SumWeights H g = some (g.map (specDegree H))
          ∧ specDegree H (ptr "a") = 2 ∧ specDegree H (ptr "b") = 3
          ∧ specDegree H (ptr "c") = 1 := by
  have hedges : ∀ e ∈ gctEdges (abcGct (2 : α) 1),
      e.1 ∈ gctIds (abcGct (2 : α) 1) ∧ e.2.1 ∈ gctIds (abcGct (2 : α) 1) := by
    simp [gctEdges, gctIds, abcGct]
  obtain ⟨H, g, ptr, hconv, hrep⟩ := convertToGraph_spec order horder _ _ hedges
  obtain ⟨_, _, _, hcl, _⟩ := Represents_wellFormed H g ptr _ _ hrep hedges
  obtain ⟨hperm, _, hnode⟩ := hrep
  have hids : (gctIds (abcGct (2 : α) 1)).dedup = ["a", "b", "c"] := by
    simp [gctIds, abcGct]
  rw [hids] at hperm
  simp only [List.map_cons, List.map_nil] at hperm
  have ha : specDegree H (ptr "a") = 2 := by
    have := hnode "a" (by simp [gctIds, abcGct])
    simp [gctEdges, abcGct, List.filter_cons] at this
    simp [specDegree, this, weightSum]
  have hb : specDegree H (ptr "b") = 3 := by
    have := hnode "b" (by simp [gctIds, abcGct])
    simp [gctEdges, abcGct, List.filter_cons] at this
    simp [specDegree, this, weightSum]
    norm_num
  have hc : specDegree H (ptr "c") = 1 := by
    have := hnode "c" (by simp [gctIds, abcGct])
    simp [gctEdges, abcGct, List.filter_cons] at this
    simp [specDegree, this, weightSum]
  have hdeg : (g.map (specDegree H)).Perm [2, 3, 1] := by
    have := hperm.map (specDegree H)
    simpa [ha, hb, hc] using this
  have hfold : (g.map (specDegree H)).foldl degreeStep (0, 0) = ((6 : α), (3 : α)) := by
    rw [degreeFold_perm hdeg]
    simp only [List.foldl_cons, List.foldl_nil, degreeStep]
    norm_num
  have hlen : g.length = 3 := by simpa using hperm.length_eq
  obtain ⟨m, hm, hsum, hmax, havg⟩ := analyseGraph_closed log2 H g hcl
  rw [hfold] at hsum hmax havg
  rw [← ConvertGctToGraph_eq] at hconv
  refine ⟨⟨m.sum, m.maximum, m.avg, m.size, m.complexity⟩,
    by simp only [AnalyseGctOutput, hconv, hm], hsum, hmax, ?_,
    H, g, ptr, hconv, hperm, SumWeights_eq_map H g (Resolved_of_Closed H g hcl), ha, hb, hc⟩
  simp only [havg, divByLen, hlen]
  norm_num

theorem abc_gct_metrics_witness :
    (∀ l : List Ptr, (id l).Perm l)
      ∧ ∃ r, AnalyseGctOutput (Real.logb 2) id (abcGct (2 : ℝ) 1) = some r
        ∧ r.SumGcd = 6 ∧ r.MaxGcd = 3 ∧ r.AvgGcd = some 2 :=
  ⟨fun l => List.Perm.refl l, by
    obtain ⟨r, h1, h2, h3, h4, _⟩ :=
      abc_gct_metrics (Real.logb 2) id (fun l => List.Perm.refl l)
    exact ⟨r, h1, h2, h3, h4⟩⟩

end Allen
